import Mathlib

/-!
Verification development for the `ov` pager's rendering core: the
escape/Unicode-aware line parser (`oviewer/content.go`) and the buffered
model with its content cache (`Model.lineToContents`).

Go code is embedded shallowly:
* runes are natural-number code points (`Nat`);
* a line is a `List Nat`; grapheme-cluster segmentation (the external
  `uniseg` dependency) and rune display widths (the external
  `go-runewidth` dependency) are modelled by executable functions
  `segment` and `runeWidth`;
* `tcell.Style` is modelled as a record of the attributes the code
  manipulates; colors are strings, as produced by `colorName`;
* the process-global `csiCache` (`sync.Map`) is threaded explicitly
  through the parser as a map from parameter strings to `OvStyle`;
* the ristretto cache of `Model` is modelled as a map from line number
  to stored value and cost.
-/

namespace Ov

/-- Code point of a character literal. -/
def ch (c : Char) : Nat := c.toNat

/-- Model of `tcell.Style`: the attribute bits and the two colors the
source manipulates.  Colors are the strings fed to tcell by the repo
(`""` = unset / terminal default). -/
structure Style where
  fg : String
  bg : String
  bold : Bool
  blink : Bool
  reverseV : Bool
  underline : Bool
  dim : Bool
  italic : Bool
  strikeThrough : Bool
deriving DecidableEq

/-- `tcell.StyleDefault`. -/
def StyleDefault : Style :=
  ⟨"", "", false, false, false, false, false, false, false⟩

/-- `tcell.Style.Normal()`: all attributes disabled. -/
def Style.normal (s : Style) : Style :=
  { s with bold := false, blink := false, reverseV := false,
           underline := false, dim := false, italic := false,
           strikeThrough := false }

/-- `tcell.Style.Reverse(b)`. -/
def Style.withReverse (s : Style) (b : Bool) : Style :=
  { s with reverseV := b }

/-- `ovStyle`: the attribute record produced by `parseCSI`.  The type is
declared outside the given sources; its fields are those read and written
in `content.go` and described in the spec (§3 Style). -/
structure OvStyle where
  Foreground : String
  Background : String
  Bold : Bool
  Dim : Bool
  Italic : Bool
  Underline : Bool
  Blink : Bool
  Reverse : Bool
  StrikeThrough : Bool
deriving DecidableEq

/-- The zero `ovStyle{}`. -/
def OvStyle.empty : OvStyle := ⟨"", "", false, false, false, false, false, false, false⟩

/-- Modelled from the spec: `applyStyle` (defined outside the given
sources) combines the attribute deltas of an `ovStyle` onto a base
style — set flags are turned on, non-empty colors override ("combine
the cached attribute deltas onto `baseStyle`", spec §4.2). -/
def applyStyle (base : Style) (o : OvStyle) : Style :=
  { fg := if o.Foreground = "" then base.fg else o.Foreground,
    bg := if o.Background = "" then base.bg else o.Background,
    bold := base.bold || o.Bold,
    blink := base.blink || o.Blink,
    reverseV := base.reverseV || o.Reverse,
    underline := base.underline || o.Underline,
    dim := base.dim || o.Dim,
    italic := base.italic || o.Italic,
    strikeThrough := base.strikeThrough || o.StrikeThrough }

/-- Modelled from the spec: `OverStrikeStyle` (defined outside the given
sources), the bold/overstrike style used when backspace overstrikes a
character with itself (spec §4.1 Backspace). -/
def OverStrikeStyle : Style := { StyleDefault with bold := true }

/-- Modelled from the spec: `OverLineStyle` (defined outside the given
sources), the underline-like style used when the overstruck character
is an underscore (spec §4.1 Backspace). -/
def OverLineStyle : Style := { StyleDefault with underline := true }

/-- `content`: one character on the terminal (field order as in the
source: width, mainc, combc, style). -/
structure Content where
  width : Nat
  mainc : Nat
  combc : List Nat
  style : Style
deriving DecidableEq

/-- `DefaultContent`: a blank content. -/
def DefaultContent : Content := ⟨0, 0, [], StyleDefault⟩

instance : Inhabited Content := ⟨DefaultContent⟩

/-- `lineContents`: one line of contents. -/
abbrev LineContents := List Content

/-- The states of the ANSI escape code parser. -/
inductive AnsiState where
  | ansiText
  | ansiEscape
  | ansiSubstring
  | ansiControlSequence
deriving DecidableEq

/-! ### Models of the external Unicode dependencies -/

/-- Control code points (C0, DEL, C1): these never join a following
grapheme cluster. -/
def isCtrl (r : Nat) : Bool := r < 0x20 || (0x7f ≤ r && r < 0xa0)

/-- Model of `runewidth.RuneWidth`: 0 for controls and combining marks,
2 for East-Asian wide ranges, 1 otherwise.  The combining and wide
ranges cover the common blocks; the claims quantify over widths through
this single function, exactly as the source does through the library. -/
def runeWidth (r : Nat) : Nat :=
  if r < 0x20 then 0
  else if r < 0x7f then 1
  else if r < 0xa0 then 0
  else if 0x300 ≤ r ∧ r ≤ 0x36f then 0
  else if 0x1ab0 ≤ r ∧ r ≤ 0x1aff then 0
  else if 0x20d0 ≤ r ∧ r ≤ 0x20f0 then 0
  else if 0xfe20 ≤ r ∧ r ≤ 0xfe2f then 0
  else if 0x1100 ≤ r ∧ r ≤ 0x115f then 2
  else if 0x2e80 ≤ r ∧ r ≤ 0x303e then 2
  else if 0x3041 ≤ r ∧ r ≤ 0x33ff then 2
  else if 0x3400 ≤ r ∧ r ≤ 0x4dbf then 2
  else if 0x4e00 ≤ r ∧ r ≤ 0x9fff then 2
  else if 0xac00 ≤ r ∧ r ≤ 0xd7a3 then 2
  else if 0xf900 ≤ r ∧ r ≤ 0xfaff then 2
  else if 0xff00 ≤ r ∧ r ≤ 0xff60 then 2
  else if 0x10ffff < r then 0
  else 1

/-- A code point that extends the current grapheme cluster: zero display
width and not a control. -/
def isComb (r : Nat) : Bool := runeWidth r == 0 && !isCtrl r

/-- Longest run of cluster-extending code points at the head of the
list, and the remainder. -/
def takeComb : List Nat → List Nat × List Nat
  | [] => ([], [])
  | r :: rest =>
    if isComb r then
      let p := takeComb rest
      (r :: p.1, p.2)
    else ([], r :: rest)

/-- Fuel-driven worker for `segment` (the fuel is only a termination
measure; `segment` supplies `s.length`, which always suffices). -/
def segmentF : Nat → List Nat → List (List Nat)
  | _, [] => []
  | 0, _ :: _ => []
  | fuel + 1, r :: rest =>
    if isCtrl r then [r] :: segmentF fuel rest
    else
      let p := takeComb rest
      (r :: p.1) :: segmentF fuel p.2

/-- Model of `uniseg.NewGraphemes`: split a line into grapheme
clusters.  A control code point is a cluster by itself; any other code
point groups with the run of zero-width non-control code points that
follows it. -/
def segment (s : List Nat) : List (List Nat) := segmentF s.length s

/-- UTF-8 byte length of a code point (Go `len(string(r))`). -/
def utf8Len (r : Nat) : Nat :=
  if r < 0x80 then 1 else if r < 0x800 then 2 else if r < 0x10000 then 3 else 4

/-! ### SGR / color resolution (`csToStyle`, `parseCSI`, `csColor`,
`colorName`, `lookupColor`) -/

/-- `lookupColor`: the color name from the color number. -/
def lookupColor (colorNumber : Int) : String :=
  if colorNumber < 0 || colorNumber > 15 then "black"
  else
    ["black", "maroon", "green", "olive", "navy", "purple", "teal",
     "silver", "gray", "red", "lime", "yellow", "blue", "fuchsia",
     "aqua", "white"].getD colorNumber.toNat "black"

/-- One lowercase hexadecimal digit. -/
def hexDigit (n : Nat) : Char :=
  if n < 10 then Char.ofNat (ch '0' + n) else Char.ofNat (ch 'a' + (n - 10))

/-- Hexadecimal digits of a natural number (no leading zeros; `"0"` for 0). -/
def hexNat (n : Nat) : String :=
  if n = 0 then "0" else
    (List.range 8).reverse.foldl
      (fun acc i =>
        let d := n / 16 ^ i % 16
        if acc = "" && d = 0 then acc else acc.push (hexDigit d)) ""

/-- Model of `fmt` verb `%02x` on a Go int: lowercase hex, zero-padded
to a total width of two (a negative value prints a sign before the hex
digits of its magnitude). -/
def hex02 (n : Int) : String :=
  if n < 0 then "-" ++ hexNat (-n).toNat
  else
    let s := hexNat n.toNat
    if s.length < 2 then "0" ++ s else s

/-- `fmt.Sprintf("#%02x%02x%02x", red, green, blue)`. -/
def sprintfHex3 (red green blue : Int) : String :=
  "#" ++ hex02 red ++ hex02 green ++ hex02 blue

/-- `colorName`: a string usable as a tcell color for an ANSI color
number (named palette below 16, 6×6×6 cube to 231, grayscale ramp to
255, empty above). -/
def colorName (colorNumber : Int) : String :=
  if colorNumber ≤ 7 then lookupColor colorNumber
  else if colorNumber ≤ 15 then lookupColor colorNumber
  else if colorNumber ≤ 231 then
    let red := (colorNumber - 16) / 36
    let green := ((colorNumber - 16) / 6) % 6
    let blue := (colorNumber - 16) % 6
    sprintfHex3 (255 * red / 5) (255 * green / 5) (255 * blue / 5)
  else if colorNumber ≤ 255 then
    let grey := 255 * (colorNumber - 232) / 23
    sprintfHex3 grey grey grey
  else ""

/-- Model of `strconv.Atoi`: decimal digits with an optional sign; any
malformed input yields 0 (the source discards `Atoi`'s error). -/
def atoi (f : List Nat) : Int :=
  let digits : List Nat → Option Nat := fun l =>
    if l = [] then none
    else l.foldl (fun acc r =>
      match acc with
      | none => none
      | some n => if ch '0' ≤ r && r ≤ ch '9' then some (n * 10 + (r - ch '0')) else none)
      (some 0)
  match f with
  | r :: rest =>
    if r = ch '-' then
      match digits rest with
      | some n => -(n : Int)
      | none => 0
    else if r = ch '+' then
      match digits rest with
      | some n => (n : Int)
      | none => 0
    else
      match digits f with
      | some n => (n : Int)
      | none => 0
  | [] => 0

/-- A semicolon-delimited SGR parameter field, as a list of code points. -/
abbrev Field := List Nat

/-- Model of `strings.Split(params, ";")`. -/
def splitSemi : List Nat → List Field
  | [] => [[]]
  | r :: rest =>
    let tl := splitSemi rest
    if r = ch ';' then [] :: tl
    else
      match tl with
      | [] => [[r]]
      | h :: t => (r :: h) :: t

/-- `csColor`: parse an 8-bit (`38;5;n`) or 24-bit (`38;2;r;g;b`) color
clause starting at `fields`; returns the number of extra fields consumed
and the updated style. -/
def csColor (style : OvStyle) (fields : List Field) : Int × OvStyle :=
  if fields.length < 2 then (1, style)
  else
    let fg := fields.getD 0 []
    let cr :=
      if fields.getD 1 [] = [ch '5'] ∧ fields.length > 2 then
        (2, colorName (atoi (fields.getD 2 [])))
      else if fields.getD 1 [] = [ch '2'] ∧ fields.length > 4 then
        let red := atoi (fields.getD 2 [])
        let green := atoi (fields.getD 3 [])
        let blue := atoi (fields.getD 4 [])
        (4, sprintfHex3 red green blue)
      else ((1 : Int), "")
    let color := cr.2
    if color.length > 0 then
      if fg = [ch '3', ch '8'] then (cr.1, { style with Foreground := color })
      else (cr.1, { style with Background := color })
    else (cr.1, style)

/-- One pass of the `parseCSI` `switch` on a single field. -/
def csiField (style : OvStyle) (field : Field) : OvStyle :=
  if field = [ch '1'] ∨ field = [ch '0', ch '1'] then { style with Bold := true }
  else if field = [ch '2'] ∨ field = [ch '0', ch '2'] then { style with Dim := true }
  else if field = [ch '3'] ∨ field = [ch '0', ch '3'] then { style with Italic := true }
  else if field = [ch '4'] ∨ field = [ch '0', ch '4'] then { style with Underline := true }
  else if field = [ch '5'] ∨ field = [ch '0', ch '5'] then { style with Blink := true }
  else if field = [ch '6'] ∨ field = [ch '0', ch '6'] then { style with Blink := true }
  else if field = [ch '7'] ∨ field = [ch '0', ch '7'] then { style with Reverse := true }
  else if field = [ch '8'] ∨ field = [ch '0', ch '8'] then { style with Reverse := true }
  else if field = [ch '9'] ∨ field = [ch '0', ch '9'] then { style with StrikeThrough := true }
  else if field = [ch '3', ch '9'] then { style with Foreground := "default" }
  else if field = [ch '4', ch '9'] then { style with Background := "default" }
  else if field.length = 2 ∧ field.getD 0 0 = ch '3' ∧
          ch '0' ≤ field.getD 1 0 ∧ field.getD 1 0 ≤ ch '7' then
    { style with Foreground := colorName (atoi field - 30) }
  else if field.length = 2 ∧ field.getD 0 0 = ch '4' ∧
          ch '0' ≤ field.getD 1 0 ∧ field.getD 1 0 ≤ ch '7' then
    { style with Background := colorName (atoi field - 40) }
  else if field.length = 2 ∧ field.getD 0 0 = ch '9' ∧
          ch '0' ≤ field.getD 1 0 ∧ field.getD 1 0 ≤ ch '7' then
    { style with Foreground := colorName (atoi field - 82) }
  else if field.length = 3 ∧ field.getD 0 0 = ch '1' ∧ field.getD 1 0 = ch '0' ∧
          ch '0' ≤ field.getD 2 0 ∧ field.getD 2 0 ≤ ch '7' then
    { style with Background := colorName (atoi field - 92) }
  else style

/-- Is this field one of the reset tokens `22`, `24`, `25`, `27`? -/
abbrev isResetField (field : Field) : Prop :=
  field = [ch '2', ch '2'] ∨ field = [ch '2', ch '4'] ∨
  field = [ch '2', ch '5'] ∨ field = [ch '2', ch '7']

/-- Is this field `38` or `48` (extended color introducer)? -/
abbrev isExtColorField (field : Field) : Prop :=
  field = [ch '3', ch '8'] ∨ field = [ch '4', ch '8']

/-- The `parseCSI` field loop (the fuel is only a termination measure
for the index jumps of `38`/`48`; `parseCSI` supplies the field count,
which always suffices since every iteration consumes at least one
field). -/
def csiLoop : Nat → List Field → OvStyle → OvStyle
  | _, [], style => style
  | 0, _ :: _, style => style
  | fuel + 1, field :: rest, style =>
    if isResetField field then csiLoop fuel rest OvStyle.empty
    else if isExtColorField field then
      let r := csColor style (field :: rest)
      csiLoop fuel (rest.drop r.1.toNat) r.2
    else csiLoop fuel rest (csiField style field)

/-- `parseCSI`: parse an SGR parameter string into an `ovStyle`. -/
def parseCSI (params : List Nat) : OvStyle :=
  let fields := splitSemi params
  csiLoop fields.length fields OvStyle.empty

/-- The process-global `csiCache` (`sync.Map`), threaded explicitly: a
map from SGR parameter strings to their parsed `ovStyle`. -/
abbrev CsiCache := List Nat → Option OvStyle

/-- The empty cache. -/
def emptyCsiCache : CsiCache := fun _ => none

/-- `csToStyle`: resolve an SGR parameter string against the current
style, consulting and updating the parameter cache. -/
def csToStyle (cache : CsiCache) (style : Style) (params : List Nat) :
    Style × CsiCache :=
  if params = [ch '0'] ∨ params = [] ∨ params = [ch ';'] then
    (StyleDefault.normal, cache)
  else
    match cache params with
    | some s => (applyStyle style s, cache)
    | none =>
      let s := parseCSI params
      (applyStyle style s, fun p => if p = params then some s else cache p)

/-! ### The line parser (`parseString`) -/

/-- `overstrike`: the style produced when code point `m` overstrikes the
remembered code point `p`. -/
def overstrike (p m : Nat) (style : Style) : Style :=
  if p = m then OverStrikeStyle
  else if p = ch '_' then OverLineStyle
  else style

/-- `lastContent`: the last character of contents (the wide cell two
positions back when the final cell is a wide-character placeholder). -/
def lastContent (lc : LineContents) : Content :=
  if lc.length = 0 then ⟨0, 0, [], StyleDefault⟩
  else if lc.length > 1 ∧ (lc.getD (lc.length - 2) DefaultContent).width > 1 then
    lc.getD (lc.length - 2) DefaultContent
  else lc.getD (lc.length - 1) DefaultContent

/-- The mutable locals of `parseString`, between grapheme clusters.
`tabX` is the column counter (a Go int that stays non-negative). -/
structure PState where
  lc : LineContents
  state : AnsiState
  csiParameter : List Nat
  style : Style
  tabX : Nat
  bsFlag : Bool
  bsContent : Content
deriving DecidableEq

/-- The initial locals of `parseString`. -/
def initState : PState :=
  ⟨[], .ansiText, [], StyleDefault, 0, false, DefaultContent⟩

/-- The tab branch of `parseString` (case `'\t'`).  For a positive tab
width it emits one visible tab cell and `tabStop - 1` empty padding
cells; for a negative one, the literal two-character sequence `\'t'` in
reverse video; for zero, nothing. -/
def tabStep (tabWidth : Int) (st : PState) : PState :=
  if tabWidth > 0 then
    let tabStop := tabWidth.toNat - st.tabX % tabWidth.toNat
    let tabCell : Content := ⟨1, ch '\t', [], st.style⟩
    let padCell : Content := ⟨1, 0, [], st.style⟩
    { st with lc := st.lc ++ tabCell :: List.replicate (tabStop - 1) padCell,
              tabX := st.tabX + tabStop }
  else if tabWidth < 0 then
    let c1 : Content := ⟨1, ch '\\', [], st.style.withReverse true⟩
    let c2 : Content := ⟨1, ch 't', [], st.style.withReverse true⟩
    { st with lc := st.lc ++ [c1, c2], tabX := st.tabX + 2 }
  else st

/-- The backspace branch of `parseString` (case `'\b'`).  Removes the
most recent cell (two cells when it is a wide character with its
placeholder) and remembers it for overstrike.  (The source also updates
a byte counter `b` here; `b` is written and never read, so it is not
modelled.) -/
def bsStep (st : PState) : PState :=
  if st.lc = [] then st
  else
    { st with
      lc := if (lastContent st.lc).width > 1 then st.lc.take (st.lc.length - 2)
            else st.lc.take (st.lc.length - 1),
      bsFlag := true, bsContent := lastContent st.lc }

/-- The combining-mark branch of `parseString`: append the zero-width
code point to the combining sequence of the last base cell.  The write
`lc[n] = lastC` is guarded by `n >= 0 && len(lc) > 0` in the source
(Go would panic outside that range; the guarded range is shown
in-bounds for parser-produced contents by the chunk invariant below). -/
def attachStep (runeValue : Nat) (st : PState) : PState :=
  if 0 ≤ ((st.lc.length : Int) - (lastContent st.lc).width) ∧ st.lc.length > 0 then
    { st with
      lc := st.lc.set ((st.lc.length : Int) - (lastContent st.lc).width).toNat
        { lastContent st.lc with combc := (lastContent st.lc).combc ++ [runeValue] } }
  else st

/-- The single-width emission branch of `parseString` (`RuneWidth = 1`). -/
def emit1 (runeValue : Nat) (restRunes : List Nat) (st : PState) : PState :=
  if st.bsFlag then
    let c : Content := ⟨1, runeValue, restRunes, overstrike st.bsContent.mainc runeValue st.style⟩
    { st with lc := st.lc ++ [c], tabX := st.tabX + 1,
              bsFlag := false, bsContent := DefaultContent }
  else
    let c : Content := ⟨1, runeValue, restRunes, st.style⟩
    { st with lc := st.lc ++ [c], tabX := st.tabX + 1 }

/-- The double-width emission branch of `parseString` (`RuneWidth = 2`):
the wide cell followed by one `DefaultContent` placeholder. -/
def emit2 (runeValue : Nat) (restRunes : List Nat) (st : PState) : PState :=
  if st.bsFlag then
    let c : Content := ⟨2, runeValue, restRunes, overstrike st.bsContent.mainc runeValue st.style⟩
    { st with lc := st.lc ++ [c, DefaultContent], tabX := st.tabX + 2,
              bsFlag := false, bsContent := DefaultContent }
  else
    let c : Content := ⟨2, runeValue, restRunes, st.style⟩
    { st with lc := st.lc ++ [c, DefaultContent], tabX := st.tabX + 2 }

/-- The text-mode part of the `parseString` loop body: the `0x1b` and
`'\n'` interceptions followed by the `RuneWidth` switch. -/
def stepText (tabWidth : Int) (st : PState) (runes : List Nat) : PState :=
  match runes with
  | [] => st
  | runeValue :: restRunes =>
    if runeValue = 0x1b then { st with state := .ansiEscape }
    else if runeValue = ch '\n' then st
    else
      if runeWidth runeValue = 0 then
        if runeValue = ch '\t' then tabStep tabWidth st
        else if runeValue = ch '\x08' then bsStep st
        else attachStep runeValue st
      else if runeWidth runeValue = 1 then emit1 runeValue restRunes st
      else if runeWidth runeValue = 2 then emit2 runeValue restRunes st
      else st

/-- One iteration of the `parseString` loop on a grapheme cluster:
the ANSI state machine, falling through to `stepText`. -/
def stepCluster (tabWidth : Int) (st : PState) (cache : CsiCache)
    (runes : List Nat) : PState × CsiCache :=
  match runes with
  | [] => (st, cache)
  | runeValue :: _ =>
    match st.state with
    | .ansiEscape =>
      if runeValue = ch '[' then
        ({ st with csiParameter := [], state := .ansiControlSequence }, cache)
      else if runeValue = ch 'c' then
        ({ st with style := StyleDefault, state := .ansiText }, cache)
      else if runeValue = ch 'P' ∨ runeValue = ch ']' ∨ runeValue = ch 'X' ∨
              runeValue = ch '^' ∨ runeValue = ch '_' then
        ({ st with state := .ansiSubstring }, cache)
      else
        (stepText tabWidth { st with state := .ansiText } runes, cache)
    | .ansiSubstring =>
      if runeValue = 0x1b then ({ st with state := .ansiControlSequence }, cache)
      else (st, cache)
    | .ansiControlSequence =>
      if runeValue = ch 'm' then
        let r := csToStyle cache st.style st.csiParameter
        ({ st with style := r.1, state := .ansiText }, r.2)
      else if ch 'A' ≤ runeValue ∧ runeValue ≤ ch 'T' then
        ({ st with state := .ansiText }, cache)
      else if 0x30 ≤ runeValue ∧ runeValue ≤ 0x3f then
        ({ st with csiParameter := st.csiParameter ++ [runeValue] }, cache)
      else ({ st with state := .ansiText }, cache)
    | .ansiText => (stepText tabWidth st runes, cache)

/-- Fold of `stepCluster` over a cluster list. -/
def parseFrom (tabWidth : Int) : PState → CsiCache → List (List Nat) → PState × CsiCache
  | st, cache, [] => (st, cache)
  | st, cache, cl :: cls =>
    let r := stepCluster tabWidth st cache cl
    parseFrom tabWidth r.1 r.2 cls

/-- `parseString`: convert a line to contents, threading the SGR cache. -/
def parseString (s : List Nat) (tabWidth : Int) (cache : CsiCache) :
    PState × CsiCache :=
  parseFrom tabWidth initState cache (segment s)

/-- `StrToContents`: the contents of a line (the global SGR cache does
not affect the result; see the cache-independence theorem). -/
def StrToContents (s : List Nat) (tabWidth : Int) : LineContents :=
  (parseString s tabWidth emptyCsiCache).1.lc

/-! ### `ContentsToStr` -/

/-- Worker for `ContentsToStr`: returns the reconstructed code points,
the byte-to-cell entries in insertion order, and the final byte
position.  `n` is the cell index and `bn` the byte position. -/
def ctsAux : LineContents → Nat → Nat → List Nat × List (Nat × Nat) × Nat
  | [], _, bn => ([], [], bn)
  | c :: rest, n, bn =>
    if c.mainc = 0 then ctsAux rest (n + 1) bn
    else
      let bytes := utf8Len c.mainc + (c.combc.map utf8Len).sum
      let r := ctsAux rest (n + 1) (bn + bytes)
      (c.mainc :: c.combc ++ r.1, (bn, n) :: r.2.1, r.2.2)

/-- `ContentsToStr`: the reconstructed string and the byte-position to
cell-index conversion entries (with the final sentinel entry). -/
def ContentsToStr (lc : LineContents) : List Nat × List (Nat × Nat) :=
  let r := ctsAux lc 0 0
  (r.1, r.2.1 ++ [(r.2.2, lc.length)])

/-! ### The buffer model (`Model`, `GetLine`, `lineToContents`) -/

/-- A value stored in the content cache.  `other` models a cached value
of any type that is not `lineContents` (the dynamic type assertion in
the source fails on it). -/
inductive CacheValue where
  | lc (v : LineContents)
  | other
deriving DecidableEq

/-- Errors of the buffer model (`ErrOutOfRange`, `ErrFatalCache`,
declared outside the given sources as distinct sentinel errors). -/
inductive OvError where
  | outOfRange
  | fatalCache
deriving DecidableEq

/-- The `Model` fields the buffer/cache claims depend on.  The
ristretto cache is modelled as a map from line number to the stored
value with its cost. -/
structure Model where
  buffer : List (List Nat)
  endNum : Int
  eof : Bool
  cache : Int → Option (CacheValue × Int)

/-- `Model.BufEndNum`: the number of the last line read. -/
def Model.BufEndNum (m : Model) : Int := m.endNum

/-- `Model.GetLine`: one line from the buffer; the empty line for an
index outside the buffer. -/
def Model.GetLine (m : Model) (lineNum : Int) : List Nat :=
  if lineNum < 0 ∨ lineNum ≥ (m.buffer.length : Int) then []
  else m.buffer.getD lineNum.toNat []

/-- `Model.lineToContents`: contents from a line number.  Returns the
possibly-updated model (the cache store `Set(lineNum, lc, 1)` on a
miss). -/
def Model.lineToContents (m : Model) (lineNum : Int) (tabWidth : Int) :
    Except OvError LineContents × Model :=
  if lineNum < 0 ∨ lineNum ≥ m.BufEndNum then (.error .outOfRange, m)
  else
    match m.cache lineNum with
    | some (.lc v, _) => (.ok v, m)
    | some (.other, _) => (.error .fatalCache, m)
    | none =>
      let lc := StrToContents (m.GetLine lineNum) tabWidth
      (.ok lc,
       { m with cache := fun k => if k = lineNum then some (.lc lc, 1) else m.cache k })

/-! ### List index helpers -/

theorem getD_append_len {α : Type _} (ys : List α) (c : α) (zs : List α) (d : α) :
    (ys ++ c :: zs).getD ys.length d = c := by
  induction ys with
  | nil => simp
  | cons y ys ih => simpa using ih

theorem set_append_len {α : Type _} (ys : List α) (c : α) (zs : List α) (c' : α) :
    (ys ++ c :: zs).set ys.length c' = ys ++ c' :: zs := by
  induction ys with
  | nil => simp
  | cons y ys ih => simpa using ih

theorem take_append_len {α : Type _} (ys zs : List α) :
    (ys ++ zs).take ys.length = ys := List.take_left ys zs

/-! ### The chunk invariant

A parser-produced `lineContents` is a concatenation of chunks: a single
width-1 cell, or a width-2 cell followed by the `DefaultContent`
placeholder.  `Chunks Q1 Q2` additionally requires `Q1` of every
width-1 cell and `Q2` of every width-2 cell. -/

inductive Chunks (Q1 Q2 : Content → Prop) : LineContents → Prop where
  | nil : Chunks Q1 Q2 []
  | one {ys : LineContents} {c : Content} :
      Chunks Q1 Q2 ys → c.width = 1 → Q1 c → Chunks Q1 Q2 (ys ++ [c])
  | two {ys : LineContents} {c : Content} :
      Chunks Q1 Q2 ys → c.width = 2 → c.mainc ≠ 0 → Q2 c →
      Chunks Q1 Q2 (ys ++ [c, DefaultContent])

/-- Last element of a chunk list has width at most 1 (it is a width-1
cell or the placeholder). -/
theorem Chunks.last_width_le {Q1 Q2 : Content → Prop} {lc : LineContents}
    (h : Chunks Q1 Q2 lc) :
    (lc.getD (lc.length - 1) DefaultContent).width ≤ 1 := by
  cases h with
  | nil => simp [DefaultContent]
  | one hys hw hq =>
    rename_i ys c
    have : (ys ++ [c]).length - 1 = ys.length := by simp
    rw [this, getD_append_len]
    omega
  | two hys hw hm hq =>
    rename_i ys c
    have h2 : ys ++ [c, DefaultContent] = (ys ++ [c]) ++ [DefaultContent] := by simp
    have h3 : (ys ++ [c, DefaultContent]).length - 1 = (ys ++ [c]).length := by simp
    rw [h3, h2, getD_append_len]
    simp [DefaultContent]

/-- `lastContent` of a chunk list ending in a width-1 chunk. -/
theorem lastContent_one {Q1 Q2 : Content → Prop} {ys : LineContents} {c : Content}
    (hys : Chunks Q1 Q2 ys) (_hw : c.width = 1) :
    lastContent (ys ++ [c]) = c := by
  have hL : (ys ++ [c]).length = ys.length + 1 := by simp
  have hlast : (ys ++ [c]).getD ((ys ++ [c]).length - 1) DefaultContent = c := by
    rw [show (ys ++ [c]).length - 1 = ys.length from by omega, getD_append_len]
  have hpen : ¬((ys ++ [c]).length > 1 ∧
      ((ys ++ [c]).getD ((ys ++ [c]).length - 2) DefaultContent).width > 1) := by
    rintro ⟨hgt, hwide⟩
    have hy : 0 < ys.length := by omega
    rw [show (ys ++ [c]).length - 2 = ys.length - 1 from by omega,
        List.getD_append _ _ _ _ (by omega)] at hwide
    have := hys.last_width_le
    omega
  unfold lastContent
  rw [if_neg (by omega), if_neg hpen, hlast]

/-- `lastContent` of a chunk list ending in a wide chunk is the wide
cell, two positions back. -/
theorem lastContent_two {ys : LineContents} {c : Content} (hw : c.width = 2) :
    lastContent (ys ++ [c, DefaultContent]) = c := by
  have hL : (ys ++ [c, DefaultContent]).length = ys.length + 2 := by simp
  have hpen : (ys ++ [c, DefaultContent]).getD ((ys ++ [c, DefaultContent]).length - 2)
      DefaultContent = c := by
    rw [show (ys ++ [c, DefaultContent]).length - 2 = ys.length from by omega,
        getD_append_len]
  unfold lastContent
  rw [if_neg (by omega), if_pos ⟨by omega, by rw [hpen]; omega⟩, hpen]

/-- Backspace truncation preserves the chunk invariant: it removes
exactly the last chunk. -/
theorem Chunks.bsTrunc {Q1 Q2 : Content → Prop} {lc : LineContents}
    (h : Chunks Q1 Q2 lc) :
    Chunks Q1 Q2 (if (lastContent lc).width > 1 then lc.take (lc.length - 2)
                  else lc.take (lc.length - 1)) := by
  cases h with
  | nil => simp [lastContent]; exact Chunks.nil
  | one hys hw hq =>
    rename_i ys c
    rw [lastContent_one hys hw]
    rw [if_neg (by omega)]
    have hlen : (ys ++ [c]).length - 1 = ys.length := by simp
    rw [hlen, take_append_len]
    exact hys
  | two hys hw hm hq =>
    rename_i ys c
    rw [lastContent_two hw]
    rw [if_pos (by omega)]
    have hlen : (ys ++ [c, DefaultContent]).length - 2 = ys.length := by simp
    rw [hlen, take_append_len]
    exact hys

/-- Combining-mark attachment preserves the chunk invariant: the guarded
write replaces the base cell of the last chunk, appending to its `combc`
(so the write is in bounds whenever `lc` is non-empty). -/
theorem Chunks.attach {Q1 Q2 : Content → Prop} {lc : LineContents} (r : Nat)
    (h : Chunks Q1 Q2 lc)
    (h1 : ∀ c, c.width = 1 → Q1 c → Q1 { c with combc := c.combc ++ [r] })
    (h2 : ∀ c, c.width = 2 → c.mainc ≠ 0 → Q2 c → Q2 { c with combc := c.combc ++ [r] }) :
    Chunks Q1 Q2 (
      if 0 ≤ ((lc.length : Int) - (lastContent lc).width) ∧ lc.length > 0 then
        lc.set ((lc.length : Int) - (lastContent lc).width).toNat
          { lastContent lc with combc := (lastContent lc).combc ++ [r] }
      else lc) := by
  cases h with
  | nil => simpa using Chunks.nil
  | one hys hw hq =>
    rename_i ys c
    have hL : (ys ++ [c]).length = ys.length + 1 := by simp
    rw [lastContent_one hys hw, hw]
    rw [if_pos ⟨by omega, by omega⟩]
    rw [show (((ys ++ [c]).length : Int) - ((1 : Nat) : Int)).toNat = ys.length from by omega,
        set_append_len]
    exact Chunks.one hys hw (h1 c hw hq)
  | two hys hw hm hq =>
    rename_i ys c
    have hL : (ys ++ [c, DefaultContent]).length = ys.length + 2 := by simp
    rw [lastContent_two hw, hw]
    rw [if_pos ⟨by omega, by omega⟩]
    rw [show (((ys ++ [c, DefaultContent]).length : Int) - ((2 : Nat) : Int)).toNat = ys.length
          from by omega,
        set_append_len]
    exact Chunks.two hys hw hm (h2 c hw hm hq)

/-- Appending a run of width-1 cells preserves the chunk invariant. -/
theorem Chunks.append_ones {Q1 Q2 : Content → Prop} {ys : LineContents}
    (h : Chunks Q1 Q2 ys) {l : LineContents}
    (hl : ∀ c ∈ l, c.width = 1 ∧ Q1 c) :
    Chunks Q1 Q2 (ys ++ l) := by
  induction l generalizing ys with
  | nil => simpa using h
  | cons c l ih =>
    have hc := hl c (by simp)
    have : ys ++ c :: l = (ys ++ [c]) ++ l := by simp
    rw [this]
    exact ih (Chunks.one h hc.1 hc.2) (fun c' hc' => hl c' (by simp [hc']))

/-! ### Projections of the step branches -/

theorem bsStep_lc (st : PState) : (bsStep st).lc =
    if st.lc = [] then st.lc
    else if (lastContent st.lc).width > 1 then st.lc.take (st.lc.length - 2)
    else st.lc.take (st.lc.length - 1) := by
  unfold bsStep
  split
  · rfl
  · split <;> rfl

theorem attachStep_lc (r : Nat) (st : PState) : (attachStep r st).lc =
    if 0 ≤ ((st.lc.length : Int) - (lastContent st.lc).width) ∧ st.lc.length > 0 then
      st.lc.set ((st.lc.length : Int) - (lastContent st.lc).width).toNat
        { lastContent st.lc with combc := (lastContent st.lc).combc ++ [r] }
    else st.lc := by
  unfold attachStep
  split <;> rfl

/-! ### The parser preserves the chunk invariant -/

/-- The chunk invariant with no extra per-cell conditions. -/
abbrev WfCells : LineContents → Prop := Chunks (fun _ => True) (fun _ => True)

theorem wf_tabStep (w : Int) {st : PState} (h : WfCells st.lc) :
    WfCells (tabStep w st).lc := by
  unfold tabStep
  split
  · refine h.append_ones ?_
    intro c hc
    rcases List.mem_cons.mp hc with rfl | hc
    · exact ⟨rfl, trivial⟩
    · exact ⟨by rw [(List.eq_of_mem_replicate hc)], trivial⟩
  · split
    · refine h.append_ones ?_
      intro c hc
      rcases List.mem_cons.mp hc with rfl | hc
      · exact ⟨rfl, trivial⟩
      · rcases List.mem_singleton.mp hc with rfl
        exact ⟨rfl, trivial⟩
    · exact h

theorem wf_bsStep {st : PState} (h : WfCells st.lc) :
    WfCells (bsStep st).lc := by
  rw [bsStep_lc]
  split
  · exact h
  · exact h.bsTrunc

theorem wf_attachStep (r : Nat) {st : PState} (h : WfCells st.lc) :
    WfCells (attachStep r st).lc := by
  rw [attachStep_lc]
  exact h.attach r (fun c _ _ => trivial) (fun c _ _ _ => trivial)

theorem wf_emit1 (rv : Nat) (rest : List Nat) {st : PState}
    (h : WfCells st.lc) : WfCells (emit1 rv rest st).lc := by
  unfold emit1
  split <;> exact Chunks.one h rfl trivial

theorem wf_emit2 (rv : Nat) (rest : List Nat) {st : PState}
    (h : WfCells st.lc) (hm : rv ≠ 0) : WfCells (emit2 rv rest st).lc := by
  unfold emit2
  split <;> exact Chunks.two h rfl hm trivial

/-- `runeWidth 0 = 0` (the NUL code point is a control). -/
theorem runeWidth_zero : runeWidth 0 = 0 := by decide

theorem wf_stepText (w : Int) (cl : List Nat) {st : PState}
    (h : WfCells st.lc) : WfCells (stepText w st cl).lc := by
  cases cl with
  | nil => exact h
  | cons rv rest =>
    simp only [stepText]
    by_cases h1b : rv = 0x1b
    · rw [if_pos h1b]; exact h
    · rw [if_neg h1b]
      by_cases hnl : rv = ch '\n'
      · rw [if_pos hnl]; exact h
      · rw [if_neg hnl]
        by_cases h0 : runeWidth rv = 0
        · rw [if_pos h0]
          by_cases ht : rv = ch '\t'
          · rw [if_pos ht]; exact wf_tabStep w h
          · rw [if_neg ht]
            by_cases hb : rv = ch '\x08'
            · rw [if_pos hb]; exact wf_bsStep h
            · rw [if_neg hb]; exact wf_attachStep rv h
        · rw [if_neg h0]
          by_cases hw1 : runeWidth rv = 1
          · rw [if_pos hw1]; exact wf_emit1 rv rest h
          · rw [if_neg hw1]
            by_cases hw2 : runeWidth rv = 2
            · rw [if_pos hw2]
              refine wf_emit2 rv rest h ?_
              rintro rfl
              exact h0 runeWidth_zero
            · rw [if_neg hw2]; exact h

theorem wf_stepCluster (w : Int) (cache : CsiCache) (cl : List Nat)
    {st : PState} (h : WfCells st.lc) :
    WfCells (stepCluster w st cache cl).1.lc := by
  cases cl with
  | nil => exact h
  | cons rv rest =>
    cases hs : st.state with
    | ansiEscape =>
      simp only [stepCluster, hs]
      split
      · exact h
      · split
        · exact h
        · split
          · exact h
          · exact wf_stepText w (rv :: rest) h
    | ansiSubstring =>
      simp only [stepCluster, hs]
      split <;> exact h
    | ansiControlSequence =>
      simp only [stepCluster, hs]
      split
      · exact h
      · split
        · exact h
        · split <;> exact h
    | ansiText =>
      simp only [stepCluster, hs]
      exact wf_stepText w (rv :: rest) h

theorem wf_parseFrom (w : Int) (cls : List (List Nat)) {st : PState}
    {cache : CsiCache} (h : WfCells st.lc) :
    WfCells (parseFrom w st cache cls).1.lc := by
  induction cls generalizing st cache with
  | nil => exact h
  | cons cl cls ih => exact ih (wf_stepCluster w cache cl h)

/-- Every parser-produced `lineContents` satisfies the chunk invariant. -/
theorem wf_strToContents (s : List Nat) (w : Int) : WfCells (StrToContents s w) :=
  wf_parseFrom w (segment s) Chunks.nil

/-! ### Per-cell and per-index consequences of the chunk invariant -/

theorem Chunks.width2_next {Q1 Q2 : Content → Prop} {lc : LineContents}
    (h : Chunks Q1 Q2 lc) :
    ∀ i, (lc.getD i DefaultContent).width = 2 →
      i + 1 < lc.length ∧ (lc.getD (i + 1) DefaultContent).mainc = 0 := by
  induction h with
  | nil =>
    intro i hi
    simp [DefaultContent] at hi
  | one hys hw hq ih =>
    rename_i ys c
    intro i hi
    rcases Nat.lt_trichotomy i ys.length with hlt | heq | hgt
    · rw [List.getD_append _ _ _ _ hlt] at hi
      obtain ⟨hlt1, hm⟩ := ih i hi
      refine ⟨by simp; omega, ?_⟩
      rw [List.getD_append _ _ _ _ hlt1]
      exact hm
    · subst heq
      rw [getD_append_len] at hi
      omega
    · rw [List.getD_eq_default _ _ (by simp; omega)] at hi
      simp [DefaultContent] at hi
  | two hys hw hm hq ih =>
    rename_i ys c
    intro i hi
    rcases Nat.lt_trichotomy i ys.length with hlt | heq | hgt
    · rw [List.getD_append _ _ _ _ hlt] at hi
      obtain ⟨hlt1, hm1⟩ := ih i hi
      refine ⟨by simp; omega, ?_⟩
      rw [List.getD_append _ _ _ _ hlt1]
      exact hm1
    · subst heq
      refine ⟨by simp, ?_⟩
      rw [show ys ++ [c, DefaultContent] = (ys ++ [c]) ++ [DefaultContent] from by simp,
          show ys.length + 1 = (ys ++ [c]).length from by simp,
          getD_append_len]
      rfl
    · rcases Nat.lt_or_ge i (ys.length + 2) with hlt2 | hge2
      · have heq1 : i = ys.length + 1 := by omega
        subst heq1
        rw [show ys ++ [c, DefaultContent] = (ys ++ [c]) ++ [DefaultContent] from by simp,
            show ys.length + 1 = (ys ++ [c]).length from by simp,
            getD_append_len] at hi
        simp [DefaultContent] at hi
      · rw [List.getD_eq_default _ _ (by simp; omega)] at hi
        simp [DefaultContent] at hi

theorem Chunks.mem_facts {Q1 Q2 : Content → Prop} {lc : LineContents}
    (h : Chunks Q1 Q2 lc) :
    ∀ c ∈ lc, c.width ≤ 2 ∧ (c.width = 0 → c.mainc = 0) ∧ (c.width = 2 → c.mainc ≠ 0) := by
  induction h with
  | nil => simp
  | one hys hw hq ih =>
    rename_i ys c
    intro x hx
    rcases List.mem_append.mp hx with hx | hx
    · exact ih x hx
    · rcases List.mem_singleton.mp hx with rfl
      exact ⟨by omega, by omega, by omega⟩
  | two hys hw hm hq ih =>
    rename_i ys c
    intro x hx
    rcases List.mem_append.mp hx with hx | hx
    · exact ih x hx
    · rcases List.mem_cons.mp hx with rfl | hx
      · exact ⟨by omega, by omega, fun _ => hm⟩
      · rcases List.mem_singleton.mp hx with rfl
        exact ⟨by simp [DefaultContent], by simp [DefaultContent], by simp [DefaultContent]⟩

/-! ### Segmentation lemmas -/

theorem takeComb_notComb {r : Nat} (h : isComb r = false) (rest : List Nat) :
    takeComb (r :: rest) = ([], r :: rest) := by
  simp [takeComb, h]

theorem takeComb_comb {r : Nat} (h : isComb r = true) (rest : List Nat) :
    takeComb (r :: rest) = (r :: (takeComb rest).1, (takeComb rest).2) := by
  simp [takeComb, h]

theorem takeComb_snd_length (l : List Nat) : (takeComb l).2.length ≤ l.length := by
  induction l with
  | nil => simp [takeComb]
  | cons r rest ih =>
    by_cases h : isComb r
    · rw [takeComb_comb h]
      exact le_trans ih (by simp)
    · rw [takeComb_notComb (by simpa using h)]

theorem segmentF_nil (fuel : Nat) : segmentF fuel [] = [] := by
  cases fuel <;> rfl

theorem segmentF_congr {fuel fuel' : Nat} :
    ∀ {s : List Nat}, s.length ≤ fuel → s.length ≤ fuel' →
      segmentF fuel s = segmentF fuel' s := by
  induction fuel generalizing fuel' with
  | zero =>
    intro s hs _
    have hnil : s = [] := List.length_eq_zero.mp (by omega)
    subst hnil
    rw [segmentF_nil, segmentF_nil]
  | succ fuel ih =>
    intro s hs hs'
    cases s with
    | nil => rw [segmentF_nil, segmentF_nil]
    | cons r rest =>
      cases fuel' with
      | zero => simp at hs'
      | succ fuel' =>
        simp only [segmentF]
        by_cases hc : isCtrl r
        · rw [if_pos hc, if_pos hc, ih (by simpa using hs) (by simpa using hs')]
        · rw [if_neg hc, if_neg hc]
          have hlen := takeComb_snd_length rest
          have h1 : (takeComb rest).2.length ≤ fuel := by simp at hs; omega
          have h2 : (takeComb rest).2.length ≤ fuel' := by simp at hs'; omega
          rw [ih h1 h2]

theorem segment_ctrl {r : Nat} (h : isCtrl r = true) (rest : List Nat) :
    segment (r :: rest) = [r] :: segment rest := by
  unfold segment
  simp only [List.length_cons, segmentF, h, if_true]

theorem segment_noctrl {r : Nat} (h : isCtrl r = false) (rest : List Nat) :
    segment (r :: rest) =
      (r :: (takeComb rest).1) :: segment (takeComb rest).2 := by
  unfold segment
  simp only [List.length_cons, segmentF, h]
  rw [if_neg (by simp [h])]
  have hlen := takeComb_snd_length rest
  rw [segmentF_congr (le_refl _) hlen]

/-- Controls have zero width. -/
theorem runeWidth_eq_zero_of_ctrl {r : Nat} (h : isCtrl r = true) :
    runeWidth r = 0 := by
  have h' : r < 0x20 ∨ (0x7f ≤ r ∧ r < 0xa0) := by simpa [isCtrl] using h
  unfold runeWidth
  rcases h' with h1 | ⟨h1, h2⟩
  · rw [if_pos h1]
  · have c1 : ¬ r < 0x20 := by omega
    have c2 : ¬ r < 0x7f := by omega
    rw [if_neg c1, if_neg c2, if_pos h2]

/-- Positive-width code points are not controls. -/
theorem not_ctrl_of_width_pos {r : Nat} (h : runeWidth r ≠ 0) : isCtrl r = false := by
  by_contra hc
  exact h (runeWidth_eq_zero_of_ctrl (by simpa using hc))

/-! ### Branch characterizations of the cluster step -/

theorem stepCluster_text (w : Int) {st : PState} (hs : st.state = .ansiText)
    (cache : CsiCache) (cl : List Nat) (hne : cl ≠ []) :
    stepCluster w st cache cl = (stepText w st cl, cache) := by
  match cl with
  | rv :: rest => simp only [stepCluster, hs]

theorem stepText_emit1 (w : Int) {st : PState} (rv : Nat) (rest : List Nat)
    (hw : runeWidth rv = 1) :
    stepText w st (rv :: rest) = emit1 rv rest st := by
  have h27 : rv ≠ 0x1b := by rintro rfl; simp [runeWidth] at hw
  have h10 : rv ≠ ch '\n' := by rintro rfl; simp [runeWidth, ch] at hw
  simp only [stepText]
  rw [if_neg h27, if_neg h10, if_neg (by omega), if_pos hw]

theorem stepText_emit2 (w : Int) {st : PState} (rv : Nat) (rest : List Nat)
    (hw : runeWidth rv = 2) :
    stepText w st (rv :: rest) = emit2 rv rest st := by
  have h27 : rv ≠ 0x1b := by rintro rfl; simp [runeWidth] at hw
  have h10 : rv ≠ ch '\n' := by rintro rfl; simp [runeWidth, ch] at hw
  simp only [stepText]
  rw [if_neg h27, if_neg h10, if_neg (by omega), if_neg (by omega), if_pos hw]

theorem stepText_tab (w : Int) {st : PState} (rest : List Nat) :
    stepText w st (9 :: rest) = tabStep w st := by
  simp only [stepText]
  rw [if_neg (by decide), if_neg (by simp [ch]), if_pos (by decide), if_pos (by simp [ch])]

theorem stepText_bs (w : Int) {st : PState} (rest : List Nat) :
    stepText w st (8 :: rest) = bsStep st := by
  simp only [stepText]
  rw [if_neg (by decide), if_neg (by simp [ch]), if_pos (by decide),
      if_neg (by simp [ch]), if_pos (by simp [ch])]

theorem stepText_mark (w : Int) {st : PState} (rv : Nat) (rest : List Nat)
    (h0 : runeWidth rv = 0) (h9 : rv ≠ 9) (h8 : rv ≠ 8) (h27 : rv ≠ 0x1b)
    (h10 : rv ≠ 10) :
    stepText w st (rv :: rest) = attachStep rv st := by
  simp only [stepText]
  rw [if_neg h27, if_neg (by simpa [ch] using h10), if_pos h0,
      if_neg (by simpa [ch] using h9), if_neg (by simpa [ch] using h8)]

theorem stepText_esc (w : Int) {st : PState} (rest : List Nat) :
    stepText w st (0x1b :: rest) = { st with state := .ansiEscape } := by
  simp only [stepText]
  rw [if_pos trivial]

theorem emit1_bsFalse (rv : Nat) (rest : List Nat) {st : PState}
    (h : st.bsFlag = false) :
    emit1 rv rest st =
      { st with lc := st.lc ++ [⟨1, rv, rest, st.style⟩], tabX := st.tabX + 1 } := by
  unfold emit1
  rw [if_neg (by simp [h])]

theorem emit1_bsTrue (rv : Nat) (rest : List Nat) {st : PState}
    (h : st.bsFlag = true) :
    emit1 rv rest st =
      { st with lc := st.lc ++ [⟨1, rv, rest, overstrike st.bsContent.mainc rv st.style⟩],
                tabX := st.tabX + 1, bsFlag := false, bsContent := DefaultContent } := by
  unfold emit1
  rw [if_pos h]

theorem emit2_bsFalse (rv : Nat) (rest : List Nat) {st : PState}
    (h : st.bsFlag = false) :
    emit2 rv rest st =
      { st with lc := st.lc ++ [⟨2, rv, rest, st.style⟩, DefaultContent],
                tabX := st.tabX + 2 } := by
  unfold emit2
  rw [if_neg (by simp [h])]

theorem emit2_bsTrue (rv : Nat) (rest : List Nat) {st : PState}
    (h : st.bsFlag = true) :
    emit2 rv rest st =
      { st with lc := st.lc ++ [⟨2, rv, rest, overstrike st.bsContent.mainc rv st.style⟩,
                                DefaultContent],
                tabX := st.tabX + 2, bsFlag := false, bsContent := DefaultContent } := by
  unfold emit2
  rw [if_pos h]

theorem attachStep_nil (r : Nat) {st : PState} (h : st.lc = []) :
    attachStep r st = st := by
  unfold attachStep
  rw [if_neg (by simp [h])]

theorem bsStep_nil {st : PState} (h : st.lc = []) : bsStep st = st := by
  unfold bsStep
  rw [if_pos h]

theorem parseFrom_nil (w : Int) (st : PState) (cache : CsiCache) :
    parseFrom w st cache [] = (st, cache) := rfl

theorem parseFrom_cons (w : Int) (st : PState) (cache : CsiCache)
    (cl : List Nat) (cls : List (List Nat)) :
    parseFrom w st cache (cl :: cls) =
      parseFrom w (stepCluster w st cache cl).1 (stepCluster w st cache cl).2 cls := rfl

/-! ### Claim theorems -/

/-- **C1**: for every input string and tab width, in the cell sequence
returned by the line parser every cell with `width = 2` is immediately
followed by a cell with `mainc = 0`; the invariant holds in the final
result after tab expansion, backspace removal, and combining-mark
attachment. -/
theorem C1_width_invariant (s : List Nat) (w : Int) (i : Nat)
    (hw : ((StrToContents s w).getD i DefaultContent).width = 2) :
    i + 1 < (StrToContents s w).length ∧
    ((StrToContents s w).getD (i + 1) DefaultContent).mainc = 0 :=
  (wf_strToContents s w).width2_next i hw

/-- Witness for C1 at the wide character U+4E16 with tab width 0: the
cell at index 0 has width 2 and is followed by a `mainc = 0` cell. -/
theorem C1_width_invariant_witness :
    ((StrToContents [0x4e16] 0).getD 0 DefaultContent).width = 2 ∧
    (0 + 1 < (StrToContents [0x4e16] 0).length ∧
     ((StrToContents [0x4e16] 0).getD (0 + 1) DefaultContent).mainc = 0) :=
  ⟨by decide, C1_width_invariant [0x4e16] 0 0 (by decide)⟩

/-- **C9, counterexample**: the claim that every stored cell width is 1
or 2 is false — parsing a single wide character stores the placeholder
cell `DefaultContent`, whose width is 0. -/
theorem C9_counterexample :
    ¬ (∀ c ∈ StrToContents [0x4e16] 0, c.width = 1 ∨ c.width = 2) := by
  decide

/-- **C9 (amended)**: every stored cell width is 0, 1 or 2, and a
width-0 cell is always a placeholder (`mainc = 0`; it is the stored
trailing cell of a wide character, cf. C1).  Width 0 *is* a stored
terminal cell width, contrary to the original claim. -/
theorem C9_width_range (s : List Nat) (w : Int) :
    ∀ c ∈ StrToContents s w,
      (c.width = 0 ∨ c.width = 1 ∨ c.width = 2) ∧ (c.width = 0 → c.mainc = 0) := by
  intro c hc
  obtain ⟨h1, h2, _⟩ := (wf_strToContents s w).mem_facts c hc
  exact ⟨by omega, h2⟩

/-- Witness for C9 (amended) at the placeholder cell stored after a
wide character. -/
theorem C9_width_range_witness :
    DefaultContent ∈ StrToContents [0x4e16] 0 ∧
    ((DefaultContent.width = 0 ∨ DefaultContent.width = 1 ∨ DefaultContent.width = 2) ∧
     (DefaultContent.width = 0 → DefaultContent.mainc = 0)) :=
  ⟨by decide, C9_width_range [0x4e16] 0 DefaultContent (by decide)⟩

/-- **C6**: resolving the SGR parameter string `"0"`, the empty string,
or `";"` yields the all-default style (`tcell.StyleDefault`, every
attribute cleared) whatever the prior style, and does so for every
cache, which it returns unchanged (the early return precedes any cache
lookup). -/
theorem C6_sgr_reset (cache : CsiCache) (style : Style) :
    csToStyle cache style [ch '0'] = (StyleDefault, cache) ∧
    csToStyle cache style [] = (StyleDefault, cache) ∧
    csToStyle cache style [ch ';'] = (StyleDefault, cache) := by
  refine ⟨?_, ?_, ?_⟩ <;>
    · unfold csToStyle
      rw [if_pos (by simp [ch])]
      rfl

/-- **C7**: in the `parseCSI` field loop, encountering any of the
tokens `22`, `24`, `25`, `27` replaces the whole accumulated attribute
record by the zero `ovStyle` — every flag and both colors set by
earlier fields are discarded, whatever they were; concretely
`parseCSI "1;31;44;22"` is the zero record. -/
theorem C7_reset_clears_all (fuel : Nat) (rest : List Field) (style : OvStyle) :
    csiLoop (fuel + 1) ([ch '2', ch '2'] :: rest) style = csiLoop fuel rest OvStyle.empty ∧
    csiLoop (fuel + 1) ([ch '2', ch '4'] :: rest) style = csiLoop fuel rest OvStyle.empty ∧
    csiLoop (fuel + 1) ([ch '2', ch '5'] :: rest) style = csiLoop fuel rest OvStyle.empty ∧
    csiLoop (fuel + 1) ([ch '2', ch '7'] :: rest) style = csiLoop fuel rest OvStyle.empty ∧
    parseCSI ((ch '1') :: (ch ';') :: (ch '3') :: (ch '1') :: (ch ';') ::
              (ch '4') :: (ch '4') :: (ch ';') :: (ch '2') :: [ch '2']) = OvStyle.empty := by
  refine ⟨?_, ?_, ?_, ?_, by decide⟩ <;>
    · simp only [csiLoop]
      rw [if_pos (by simp [isResetField, ch])]

theorem isComb_false_of_width {r : Nat} (h : runeWidth r ≠ 0) : isComb r = false := by
  simp [isComb, h]

theorem isComb_false_of_ctrl {r : Nat} (h : isCtrl r = true) : isComb r = false := by
  simp [isComb, h]

/-- **C4**: backspace implements overstrike.  It removes the most
recently emitted cell (together with the wide cell when the final cell
is a wide-character placeholder), remembers its code point, and the
next emitted character is combined with it: identical code points give
the overstrike (bold) style, a remembered underscore gives the
overline style, and otherwise the character keeps its own style; a
backspace with no preceding cell is a no-op; and `"A\bA"` parses to a
single overstruck cell. -/
theorem C4_backspace_overstrike (p m : Nat) (hp : runeWidth p = 1)
    (hm : runeWidth m = 1) (w : Int) :
    StrToContents [p, 8, m] w =
      [⟨1, m, [], if p = m then OverStrikeStyle
                  else if p = ch '_' then OverLineStyle else StyleDefault⟩] ∧
    (∀ s : List Nat, StrToContents (8 :: s) w = StrToContents s w) ∧
    (∀ W, runeWidth W = 2 →
      StrToContents [W, 8, m] w =
        [⟨1, m, [], if W = m then OverStrikeStyle
                    else if W = ch '_' then OverLineStyle else StyleDefault⟩]) ∧
    StrToContents [ch 'A', 8, ch 'A'] w = [⟨1, ch 'A', [], OverStrikeStyle⟩] := by
  have hA : runeWidth (ch 'A') = 1 := by decide
  have base : ∀ q : Nat, runeWidth q ≠ 0 → isCtrl q = false := fun q h =>
    not_ctrl_of_width_pos h
  have main : ∀ q m' : Nat, runeWidth m' = 1 → (runeWidth q = 1 ∨ runeWidth q = 2) →
      StrToContents [q, 8, m'] w =
        [⟨1, m', [], if q = m' then OverStrikeStyle
                     else if q = ch '_' then OverLineStyle else StyleDefault⟩] := by
    intro q m hm hq
    have hqc : isCtrl q = false := base q (by omega)
    have hmc : isCtrl m = false := base m (by omega)
    have hseg : segment [q, 8, m] = [[q], [8], [m]] := by
      rw [segment_noctrl hqc, takeComb_notComb (by decide)]
      simp only []
      rw [segment_ctrl (by decide), segment_noctrl hmc]
      simp [takeComb, segment, segmentF_nil]
    unfold StrToContents parseString
    rw [hseg, parseFrom_cons, stepCluster_text w rfl _ _ (by simp)]
    rcases hq with hq | hq
    · rw [stepText_emit1 w q [] hq, emit1_bsFalse q [] rfl]
      rw [parseFrom_cons, stepCluster_text w rfl _ _ (by simp), stepText_bs]
      have hbs : bsStep { initState with
          lc := initState.lc ++ [⟨1, q, [], initState.style⟩],
          tabX := initState.tabX + 1 } =
        { initState with
          lc := [], tabX := 1, bsFlag := true,
          bsContent := ⟨1, q, [], StyleDefault⟩ } := by
        unfold bsStep
        rw [if_neg (by simp [initState])]
        simp [initState, lastContent, DefaultContent]
      rw [hbs, parseFrom_cons, stepCluster_text w rfl _ _ (by simp),
          stepText_emit1 w m [] hm, emit1_bsTrue m [] rfl, parseFrom_nil]
      simp [initState, overstrike]
    · rw [stepText_emit2 w q [] hq, emit2_bsFalse q [] rfl]
      rw [parseFrom_cons, stepCluster_text w rfl _ _ (by simp), stepText_bs]
      have hbs : bsStep { initState with
          lc := initState.lc ++ [⟨2, q, [], initState.style⟩, DefaultContent],
          tabX := initState.tabX + 2 } =
        { initState with
          lc := [], tabX := 2, bsFlag := true,
          bsContent := ⟨2, q, [], StyleDefault⟩ } := by
        unfold bsStep
        rw [if_neg (by simp [initState])]
        simp [initState, lastContent, DefaultContent]
      rw [hbs, parseFrom_cons, stepCluster_text w rfl _ _ (by simp),
          stepText_emit1 w m [] hm, emit1_bsTrue m [] rfl, parseFrom_nil]
      simp [initState, overstrike]
  refine ⟨main p m hm (Or.inl hp), ?_, fun W hW => main W m hm (Or.inr hW), ?_⟩
  · intro s
    unfold StrToContents parseString
    rw [segment_ctrl (by decide), parseFrom_cons,
        stepCluster_text w rfl _ _ (by simp), stepText_bs, bsStep_nil rfl]
  · have h := main (ch 'A') (ch 'A') hA (Or.inl hA)
    simpa using h

/-- Witness for C4 with a remembered underscore overstruck by `x`:
the emitted cell carries the overline style. -/
theorem C4_backspace_overstrike_witness :
    runeWidth (ch '_') = 1 ∧ runeWidth (ch 'x') = 1 ∧
    StrToContents [ch '_', 8, ch 'x'] 4 = [⟨1, ch 'x', [], OverLineStyle⟩] := by
  refine ⟨by decide, by decide, ?_⟩
  have h := (C4_backspace_overstrike (ch '_') (ch 'x') (by decide) (by decide) 4).1
  simpa [ch] using h

/-- **C5**: tab handling depends on the sign of the tab width: positive
widths emit one visible tab cell then `mainc = 0` padding cells up to
the next tab stop; negative widths emit the literal two-character
sequence backslash-t in reverse video; width zero emits nothing; and
`"a\tb"` at width 4 parses to exactly 5 cells with `b` at index 4. -/
theorem C5_tab_handling (w : Int) (st : PState) (cache : CsiCache)
    (rest : List Nat) (hstate : st.state = .ansiText) :
    (w > 0 → stepCluster w st cache (9 :: rest) =
      ({ st with
          lc := st.lc ++ ⟨1, ch '\t', [], st.style⟩ ::
                List.replicate (w.toNat - st.tabX % w.toNat - 1) ⟨1, 0, [], st.style⟩,
          tabX := st.tabX + (w.toNat - st.tabX % w.toNat) }, cache)) ∧
    (w < 0 → stepCluster w st cache (9 :: rest) =
      ({ st with
          lc := st.lc ++ [⟨1, ch '\\', [], st.style.withReverse true⟩,
                          ⟨1, ch 't', [], st.style.withReverse true⟩],
          tabX := st.tabX + 2 }, cache)) ∧
    (w = 0 → stepCluster w st cache (9 :: rest) = (st, cache)) ∧
    StrToContents [ch 'a', 9, ch 'b'] 4 =
      [⟨1, ch 'a', [], StyleDefault⟩, ⟨1, ch '\t', [], StyleDefault⟩,
       ⟨1, 0, [], StyleDefault⟩, ⟨1, 0, [], StyleDefault⟩,
       ⟨1, ch 'b', [], StyleDefault⟩] := by
  refine ⟨?_, ?_, ?_, by decide⟩
  · intro hw
    rw [stepCluster_text w hstate cache _ (by simp), stepText_tab]
    unfold tabStep
    rw [if_pos hw]
  · intro hw
    rw [stepCluster_text w hstate cache _ (by simp), stepText_tab]
    unfold tabStep
    rw [if_neg (by omega), if_pos hw]
  · intro hw
    rw [stepCluster_text w hstate cache _ (by simp), stepText_tab]
    unfold tabStep
    rw [if_neg (by omega), if_neg (by omega)]

/-- Witness for C5 at tab width 4 from the initial state: the tab
emits a visible tab cell and three padding cells, advancing the column
to the tab stop. -/
theorem C5_tab_handling_witness :
    initState.state = AnsiState.ansiText ∧ (4 : Int) > 0 ∧
    stepCluster 4 initState emptyCsiCache [9] =
      ({ initState with
          lc := [⟨1, ch '\t', [], StyleDefault⟩, ⟨1, 0, [], StyleDefault⟩,
                 ⟨1, 0, [], StyleDefault⟩, ⟨1, 0, [], StyleDefault⟩],
          tabX := 4 }, emptyCsiCache) := by
  refine ⟨rfl, by norm_num, ?_⟩
  have h := (C5_tab_handling 4 initState emptyCsiCache [] rfl).1 (by norm_num)
  simpa [initState] using h

/-- A cluster headed by a combining mark is dropped whole when no cell
has been emitted yet: the guarded attachment leaves the empty sequence
(and the whole parser state) unchanged. -/
theorem stepCluster_markInit (w : Int) (cache : CsiCache) (rv : Nat) (t : List Nat)
    (h0 : runeWidth rv = 0) (hc : isCtrl rv = false) :
    stepCluster w initState cache (rv :: t) = (initState, cache) := by
  have h9 : rv ≠ 9 := by rintro rfl; exact absurd hc (by decide)
  have h8 : rv ≠ 8 := by rintro rfl; exact absurd hc (by decide)
  have h27 : rv ≠ 27 := by rintro rfl; exact absurd hc (by decide)
  have h10 : rv ≠ 10 := by rintro rfl; exact absurd hc (by decide)
  rw [stepCluster_text w rfl cache _ (by simp),
      stepText_mark w rv t h0 h9 h8 h27 h10, attachStep_nil rv rfl]

/-- **C10**: a zero-width combining code point (not tab or backspace)
at the start of the line — when no cell has been emitted — makes the
parser emit no cell, modify nothing and not fail: the guarded
attachment write silently drops the mark, so the parse equals the
parse of the rest of the line. -/
theorem C10_leading_mark_dropped (r : Nat) (s : List Nat) (w : Int)
    (h0 : runeWidth r = 0) (hc : isCtrl r = false) :
    StrToContents (r :: s) w = StrToContents s w := by
  unfold StrToContents parseString
  rw [segment_noctrl hc, parseFrom_cons,
      stepCluster_markInit w emptyCsiCache r _ h0 hc]
  cases s with
  | nil => rfl
  | cons m s' =>
    by_cases hm : isComb m = true
    · have hm' : runeWidth m = 0 ∧ isCtrl m = false := by
        simpa [isComb] using hm
      rw [takeComb_comb hm, segment_noctrl hm'.2, parseFrom_cons,
          stepCluster_markInit w emptyCsiCache m _ hm'.1 hm'.2]
    · rw [takeComb_notComb (by simpa using hm)]

/-- Witness for C10: a combining grave accent before `a` is dropped. -/
theorem C10_leading_mark_dropped_witness :
    runeWidth 0x300 = 0 ∧ isCtrl 0x300 = false ∧
    StrToContents (0x300 :: [97]) 4 = StrToContents [97] 4 :=
  ⟨by decide, by decide, C10_leading_mark_dropped 0x300 [97] 4 (by decide) (by decide)⟩

/-- **C2**: `lineToContents` fails with the out-of-range error exactly
when `n < 0` or `n ≥ lineCount` (`BufEndNum`); in range, a cached
value that is not of the `lineContents` type yields the fatal-cache
error, which is distinct from out-of-range; a cached `lineContents`
is returned as-is with no error and no model change; and on a cache
miss the line is parsed, returned with no error, and stored in the
cache with unit cost. -/
theorem C2_lineToContents (m : Model) (n w : Int) :
    ((m.lineToContents n w).1 = .error .outOfRange ↔ n < 0 ∨ n ≥ m.endNum) ∧
    (∀ cost, ¬(n < 0 ∨ n ≥ m.endNum) → m.cache n = some (.other, cost) →
      (m.lineToContents n w).1 = .error .fatalCache) ∧
    OvError.fatalCache ≠ OvError.outOfRange ∧
    (∀ v cost, ¬(n < 0 ∨ n ≥ m.endNum) → m.cache n = some (.lc v, cost) →
      m.lineToContents n w = (.ok v, m)) ∧
    (¬(n < 0 ∨ n ≥ m.endNum) → m.cache n = none →
      (m.lineToContents n w).1 = .ok (StrToContents (m.GetLine n) w) ∧
      (m.lineToContents n w).2.cache n =
        some (.lc (StrToContents (m.GetLine n) w), 1)) := by
  unfold Model.lineToContents Model.BufEndNum
  by_cases hr : n < 0 ∨ n ≥ m.endNum
  · rw [if_pos hr]
    refine ⟨⟨fun _ => hr, fun _ => rfl⟩, ?_, by decide, ?_, ?_⟩
    · intro cost hnr _; exact absurd hr hnr
    · intro v cost hnr _; exact absurd hr hnr
    · intro hnr _; exact absurd hr hnr
  · rw [if_neg hr]
    refine ⟨?_, ?_, by decide, ?_, ?_⟩
    · constructor
      · intro he
        rcases hcv : m.cache n with _ | ⟨cv, cost⟩
        · rw [hcv] at he; simp at he
        · rcases cv with v | _
          · rw [hcv] at he; simp at he
          · rw [hcv] at he; simp at he
      · intro h; exact absurd h hr
    · intro cost hnr hcv
      rw [hcv]
    · intro v cost hnr hcv
      rw [hcv]
    · intro hnr hcv
      rw [hcv]
      exact ⟨rfl, by simp⟩

/-- A concrete model for the C2 witness: three buffered lines, a good
cache entry at line 0, a corrupted one at line 1, and a miss at 2. -/
def c2model : Model :=
  { buffer := [[97], [98], [99]], endNum := 3, eof := true,
    cache := fun k =>
      if k = 0 then some (.lc [⟨1, 97, [], StyleDefault⟩], 1)
      else if k = 1 then some (.other, 1) else none }

/-- Witness for C2: out-of-range at 5, fatal-cache at 1, cache hit at
0, parse-and-store miss at 2. -/
theorem C2_lineToContents_witness :
    (c2model.lineToContents 5 4).1 = .error .outOfRange ∧
    (c2model.lineToContents 1 4).1 = .error .fatalCache ∧
    c2model.lineToContents 0 4 = (.ok [⟨1, 97, [], StyleDefault⟩], c2model) ∧
    (c2model.lineToContents 2 4).1 = .ok (StrToContents (c2model.GetLine 2) 4) ∧
    (c2model.lineToContents 2 4).2.cache 2 =
      some (.lc (StrToContents (c2model.GetLine 2) 4), 1) :=
  ⟨(C2_lineToContents c2model 5 4).1.mpr (by decide),
   (C2_lineToContents c2model 1 4).2.1 1 (by decide) (by decide),
   (C2_lineToContents c2model 0 4).2.2.2.1 [⟨1, 97, [], StyleDefault⟩] 1
     (by decide) (by decide),
   ((C2_lineToContents c2model 2 4).2.2.2.2 (by decide) (by decide)).1,
   ((C2_lineToContents c2model 2 4).2.2.2.2 (by decide) (by decide)).2⟩

/-! ### Cache independence of the parse -/

/-- A well-formed SGR cache: every entry is the `parseCSI` of its key.
The source only ever stores `csiCache.Store(params, parseCSI(params))`,
so every reachable cache state is well formed. -/
def CsiCacheWF (cache : CsiCache) : Prop :=
  ∀ p s, cache p = some s → s = parseCSI p

theorem emptyCsiCache_wf : CsiCacheWF emptyCsiCache := by
  intro p s hp
  simp [emptyCsiCache] at hp

theorem csToStyle_wf {cache : CsiCache} (hwf : CsiCacheWF cache)
    (style : Style) (params : List Nat) :
    (csToStyle cache style params).1 =
      (if params = [ch '0'] ∨ params = [] ∨ params = [ch ';'] then StyleDefault.normal
       else applyStyle style (parseCSI params)) ∧
    CsiCacheWF (csToStyle cache style params).2 := by
  unfold csToStyle
  split
  · exact ⟨rfl, hwf⟩
  · rcases hcv : cache params with _ | s
    · refine ⟨rfl, ?_⟩
      intro p s hp
      by_cases hpp : p = params
      · subst hpp
        simp at hp
        exact hp.symm
      · simp [hpp] at hp
        exact hwf p s hp
    · exact ⟨by rw [hwf params s hcv], hwf⟩

theorem stepCluster_cache_irrel (w : Int) {c1 c2 : CsiCache}
    (h1 : CsiCacheWF c1) (h2 : CsiCacheWF c2) (st : PState) (cl : List Nat) :
    (stepCluster w st c1 cl).1 = (stepCluster w st c2 cl).1 ∧
    CsiCacheWF (stepCluster w st c1 cl).2 ∧
    CsiCacheWF (stepCluster w st c2 cl).2 := by
  cases cl with
  | nil => exact ⟨rfl, h1, h2⟩
  | cons rv rest =>
    cases hs : st.state with
    | ansiEscape =>
      simp only [stepCluster, hs]
      split
      · exact ⟨rfl, h1, h2⟩
      · split
        · exact ⟨rfl, h1, h2⟩
        · split
          · exact ⟨rfl, h1, h2⟩
          · exact ⟨rfl, h1, h2⟩
    | ansiSubstring =>
      simp only [stepCluster, hs]
      split <;> exact ⟨rfl, h1, h2⟩
    | ansiControlSequence =>
      simp only [stepCluster, hs]
      split
      · have e1 := csToStyle_wf h1 st.style st.csiParameter
        have e2 := csToStyle_wf h2 st.style st.csiParameter
        refine ⟨?_, e1.2, e2.2⟩
        rw [show ((csToStyle c1 st.style st.csiParameter).1 : Style) =
              (csToStyle c2 st.style st.csiParameter).1 from by rw [e1.1, e2.1]]
      · split
        · exact ⟨rfl, h1, h2⟩
        · split <;> exact ⟨by trivial, h1, h2⟩
    | ansiText => simp only [stepCluster, hs]; exact ⟨by trivial, h1, h2⟩

theorem parseFrom_cache_irrel (w : Int) (cls : List (List Nat)) :
    ∀ {st : PState} {c1 c2 : CsiCache}, CsiCacheWF c1 → CsiCacheWF c2 →
      (parseFrom w st c1 cls).1 = (parseFrom w st c2 cls).1 := by
  induction cls with
  | nil => intro st c1 c2 _ _; rfl
  | cons cl cls ih =>
    intro st c1 c2 h1 h2
    rw [parseFrom_cons, parseFrom_cons]
    obtain ⟨heq, hw1, hw2⟩ := stepCluster_cache_irrel w h1 h2 st cl
    rw [heq]
    exact ih hw1 hw2

/-- **C8**: parsing the same line twice with the same arguments yields
identical results, and the result does not depend on the state of the
SGR memoization cache, for any two well-formed caches (and every cache
the program builds is well formed, since only `parseCSI params` is ever
stored under `params`): a hit applies the same attribute deltas as a
fresh parse. -/
theorem C8_parse_deterministic (s : List Nat) (w : Int) (c1 c2 : CsiCache)
    (h1 : CsiCacheWF c1) (h2 : CsiCacheWF c2) :
    parseString s w c1 = parseString s w c1 ∧
    (parseString s w c1).1 = (parseString s w c2).1 :=
  ⟨rfl, parseFrom_cache_irrel w (segment s) h1 h2⟩

/-- A pre-warmed cache holding the parse of `"31"` under `"31"`. -/
def c8cache : CsiCache :=
  fun p => if p = [ch '3', ch '1'] then some (parseCSI [ch '3', ch '1']) else none

theorem c8cache_wf : CsiCacheWF c8cache := by
  intro p s hp
  by_cases h : p = [ch '3', ch '1']
  · subst h
    simp [c8cache] at hp
    exact hp.symm
  · simp [c8cache, h] at hp

/-- Witness for C8: parsing `"\x1b[31ma"` against the empty cache and
against the pre-warmed cache gives the same parser state. -/
theorem C8_parse_deterministic_witness :
    CsiCacheWF emptyCsiCache ∧ CsiCacheWF c8cache ∧
    (parseString [27, 91, 51, 49, 109, 97] 4 emptyCsiCache).1 =
      (parseString [27, 91, 51, 49, 109, 97] 4 c8cache).1 :=
  ⟨emptyCsiCache_wf, c8cache_wf,
   (C8_parse_deterministic [27, 91, 51, 49, 109, 97] 4 emptyCsiCache c8cache
      emptyCsiCache_wf c8cache_wf).2⟩

/-! ### Further segmentation lemmas, for the round-trip claim -/

theorem takeComb_fst_mem (l : List Nat) :
    ∀ x ∈ (takeComb l).1, isComb x = true ∧ x ∈ l := by
  induction l with
  | nil => simp [takeComb]
  | cons r rest ih =>
    by_cases h : isComb r = true
    · rw [takeComb_comb h]
      intro x hx
      rcases List.mem_cons.mp hx with rfl | hx
      · exact ⟨h, by simp⟩
      · obtain ⟨h1, h2⟩ := ih x hx
        exact ⟨h1, by simp [h2]⟩
    · rw [takeComb_notComb (by simpa using h)]
      simp

theorem takeComb_snd_mem (l : List Nat) :
    ∀ x ∈ (takeComb l).2, x ∈ l := by
  induction l with
  | nil => simp [takeComb]
  | cons r rest ih =>
    by_cases h : isComb r = true
    · rw [takeComb_comb h]
      intro x hx
      exact by simp [ih x hx]
    · rw [takeComb_notComb (by simpa using h)]
      simp

theorem takeComb_all {l : List Nat} (h : ∀ r ∈ l, isComb r = true) :
    takeComb l = (l, []) := by
  induction l with
  | nil => rfl
  | cons r rest ih =>
    rw [takeComb_comb (h r (by simp)), ih (fun r hr => h r (by simp [hr]))]

/-- A rune list that is empty or starts with a non-extending code
point (so that it opens a fresh grapheme cluster). -/
def StartsBase (y : List Nat) : Prop :=
  y = [] ∨ ∃ b t, y = b :: t ∧ isComb b = false

theorem takeComb_append {y : List Nat} (hy : StartsBase y) (x : List Nat) :
    takeComb (x ++ y) = ((takeComb x).1, (takeComb x).2 ++ y) := by
  induction x with
  | nil =>
    rcases hy with rfl | ⟨b, t, rfl, hb⟩
    · rfl
    · rw [List.nil_append, takeComb_notComb hb]
      rfl
  | cons r x' ih =>
    by_cases h : isComb r = true
    · rw [List.cons_append, takeComb_comb h, takeComb_comb h, ih]
    · rw [List.cons_append, takeComb_notComb (by simpa using h),
          takeComb_notComb (by simpa using h)]
      rfl

theorem segment_append {y : List Nat} (hy : StartsBase y) :
    ∀ x : List Nat, segment (x ++ y) = segment x ++ segment y := by
  have key : ∀ n (x : List Nat), x.length = n →
      segment (x ++ y) = segment x ++ segment y := by
    intro n
    induction n using Nat.strong_induction_on with
    | _ n ih =>
      intro x hn
      cases x with
      | nil => simp [segment, segmentF]
      | cons r x' =>
        by_cases hc : isCtrl r = true
        · rw [List.cons_append, segment_ctrl hc, segment_ctrl hc,
              ih x'.length (by simp at hn; omega) x' rfl, List.cons_append]
        · rw [List.cons_append, segment_noctrl (by simpa using hc),
              segment_noctrl (by simpa using hc), takeComb_append hy]
          have hlen := takeComb_snd_length x'
          rw [ih (takeComb x').2.length (by simp at hn; omega) _ rfl,
              List.cons_append]
  exact fun x => key x.length x rfl

/-- Every cluster of `segment s` is a non-empty list whose head is in
`s` and whose tail consists of extending code points from `s`. -/
theorem segment_shape (s : List Nat) :
    ∀ cl ∈ segment s, ∃ h t, cl = h :: t ∧ h ∈ s ∧
      ∀ r ∈ t, isComb r = true ∧ r ∈ s := by
  have key : ∀ n (s : List Nat), s.length = n →
      ∀ cl ∈ segment s, ∃ h t, cl = h :: t ∧ h ∈ s ∧
        ∀ r ∈ t, isComb r = true ∧ r ∈ s := by
    intro n
    induction n using Nat.strong_induction_on with
    | _ n ih =>
      intro s hn
      cases s with
      | nil => simp [segment, segmentF]
      | cons r rest =>
        by_cases hc : isCtrl r = true
        · rw [segment_ctrl hc]
          intro cl hcl
          rcases List.mem_cons.mp hcl with rfl | hcl
          · exact ⟨r, [], rfl, by simp, by simp⟩
          · obtain ⟨h, t, rfl, hh, ht⟩ :=
              ih rest.length (by simp at hn; omega) rest rfl cl hcl
            exact ⟨h, t, rfl, by simp [hh], fun x hx =>
              ⟨(ht x hx).1, by simp [(ht x hx).2]⟩⟩
        · rw [segment_noctrl (by simpa using hc)]
          intro cl hcl
          rcases List.mem_cons.mp hcl with rfl | hcl
          · refine ⟨r, (takeComb rest).1, rfl, by simp, fun x hx => ?_⟩
            obtain ⟨h1, h2⟩ := takeComb_fst_mem rest x hx
            exact ⟨h1, by simp [h2]⟩
          · have hlen := takeComb_snd_length rest
            obtain ⟨h, t, rfl, hh, ht⟩ :=
              ih (takeComb rest).2.length (by simp at hn; omega) _ rfl cl hcl
            exact ⟨h, t, rfl, by simp [takeComb_snd_mem rest h hh], fun x hx =>
              ⟨(ht x hx).1, by simp [takeComb_snd_mem rest x (ht x hx).2]⟩⟩
  exact key s.length s rfl

/-! ### The reconstructed string -/

/-- The string part of `ContentsToStr`: the `mainc` and `combc` of
every non-placeholder cell, in order. -/
def reconStr : LineContents → List Nat
  | [] => []
  | c :: rest =>
    if c.mainc = 0 then reconStr rest
    else c.mainc :: (c.combc ++ reconStr rest)

theorem ctsAux_fst (lc : LineContents) :
    ∀ n bn, (ctsAux lc n bn).1 = reconStr lc := by
  induction lc with
  | nil => intro n bn; rfl
  | cons c rest ih =>
    intro n bn
    by_cases h : c.mainc = 0
    · simp only [ctsAux, reconStr, if_pos h]
      exact ih _ _
    · simp only [ctsAux, reconStr, if_neg h]
      simp [ih]

/-- The reconstructed string of `ContentsToStr` is `reconStr`. -/
theorem contentsToStr_fst (lc : LineContents) :
    (ContentsToStr lc).1 = reconStr lc := ctsAux_fst lc 0 0

theorem reconStr_append (a b : LineContents) :
    reconStr (a ++ b) = reconStr a ++ reconStr b := by
  induction a with
  | nil => rfl
  | cons c rest ih =>
    by_cases h : c.mainc = 0
    · simp only [List.cons_append, reconStr, if_pos h]
      exact ih
    · simp only [List.cons_append, reconStr, if_neg h]
      simp only [show rest.append b = rest ++ b from rfl, ih, List.append_assoc]

theorem reconStr_mem {lc : LineContents} :
    ∀ r ∈ reconStr lc, ∃ c ∈ lc, (r = c.mainc ∧ c.mainc ≠ 0) ∨ r ∈ c.combc := by
  induction lc with
  | nil => simp [reconStr]
  | cons c rest ih =>
    by_cases h : c.mainc = 0
    · simp only [reconStr, if_pos h]
      intro r hr
      obtain ⟨c', hc', hrc⟩ := ih r hr
      exact ⟨c', by simp [hc'], hrc⟩
    · simp only [reconStr, if_neg h]
      intro r hr
      rcases List.mem_cons.mp hr with rfl | hr
      · exact ⟨c, by simp, Or.inl ⟨rfl, h⟩⟩
      · rcases List.mem_append.mp hr with hr | hr
        · exact ⟨c, by simp, Or.inr hr⟩
        · obtain ⟨c', hc', hrc⟩ := ih r hr
          exact ⟨c', by simp [hc'], hrc⟩

/-! ### The plain-shape invariant (tab-free, tame inputs) -/

/-- Plain width-1 cell: the base code point really has width 1 and the
combining sequence holds only extending code points. -/
def QP1 (c : Content) : Prop :=
  runeWidth c.mainc = 1 ∧ ∀ r ∈ c.combc, isComb r = true

/-- Plain width-2 cell. -/
def QP2 (c : Content) : Prop :=
  runeWidth c.mainc = 2 ∧ ∀ r ∈ c.combc, isComb r = true

/-- The plain-shape invariant on parsed contents. -/
abbrev PlainSh : LineContents → Prop := Chunks QP1 QP2

/-- A tame code point: not a tab, and if it is a zero-width control
then it is backspace, newline or escape.  (A line of tame code points
is exactly the restriction under which the plain-text round-trip
holds.) -/
abbrev TameR (r : Nat) : Prop :=
  r ≠ 9 ∧ (runeWidth r = 0 → isCtrl r = true → r = 8 ∨ r = 10 ∨ r = 27)

theorem chunks_bsStep {Q1 Q2 : Content → Prop} {st : PState}
    (h : Chunks Q1 Q2 st.lc) : Chunks Q1 Q2 (bsStep st).lc := by
  rw [bsStep_lc]
  split
  · exact h
  · exact h.bsTrunc

theorem chunks_attachStep {Q1 Q2 : Content → Prop} (r : Nat) {st : PState}
    (h : Chunks Q1 Q2 st.lc)
    (h1 : ∀ c, c.width = 1 → Q1 c → Q1 { c with combc := c.combc ++ [r] })
    (h2 : ∀ c, c.width = 2 → c.mainc ≠ 0 → Q2 c → Q2 { c with combc := c.combc ++ [r] }) :
    Chunks Q1 Q2 (attachStep r st).lc := by
  rw [attachStep_lc]
  exact h.attach r h1 h2

theorem plainSh_stepText (w : Int) {st : PState} (rv : Nat) (t : List Nat)
    (h : PlainSh st.lc) (hrv : TameR rv) (ht : ∀ r ∈ t, isComb r = true) :
    PlainSh (stepText w st (rv :: t)).lc := by
  simp only [stepText]
  by_cases h1b : rv = 0x1b
  · rw [if_pos h1b]; exact h
  · rw [if_neg h1b]
    by_cases hnl : rv = ch '\n'
    · rw [if_pos hnl]; exact h
    · rw [if_neg hnl]
      by_cases h0 : runeWidth rv = 0
      · rw [if_pos h0, if_neg (by simpa [ch] using hrv.1)]
        by_cases hb : rv = ch '\x08'
        · rw [if_pos hb]
          exact chunks_bsStep h
        · rw [if_neg hb]
          have hcomb : isComb rv = true := by
            have hctrl : isCtrl rv = false := by
              by_contra hc
              rcases hrv.2 h0 (by simpa using hc) with rfl | rfl | rfl
              · exact hb (by simp [ch])
              · exact hnl (by simp [ch])
              · exact h1b rfl
            simp [isComb, h0, hctrl]
          refine chunks_attachStep rv h ?_ ?_
          · rintro c hw ⟨hm, hcc⟩
            refine ⟨hm, ?_⟩
            intro x hx
            rcases List.mem_append.mp hx with hx | hx
            · exact hcc x hx
            · rcases List.mem_singleton.mp hx with rfl
              exact hcomb
          · rintro c hw hm0 ⟨hm, hcc⟩
            refine ⟨hm, ?_⟩
            intro x hx
            rcases List.mem_append.mp hx with hx | hx
            · exact hcc x hx
            · rcases List.mem_singleton.mp hx with rfl
              exact hcomb
      · rw [if_neg h0]
        by_cases hw1 : runeWidth rv = 1
        · rw [if_pos hw1]
          unfold emit1
          split <;> exact Chunks.one h rfl ⟨hw1, ht⟩
        · rw [if_neg hw1]
          by_cases hw2 : runeWidth rv = 2
          · rw [if_pos hw2]
            unfold emit2
            have hm0 : rv ≠ 0 := by rintro rfl; exact h0 runeWidth_zero
            split <;> exact Chunks.two h rfl hm0 ⟨hw2, ht⟩
          · rw [if_neg hw2]; exact h

theorem plainSh_stepCluster (w : Int) (cache : CsiCache) {st : PState}
    (cl : List Nat) (h : PlainSh st.lc)
    (hcl : ∃ hd tl, cl = hd :: tl ∧ TameR hd ∧ ∀ r ∈ tl, isComb r = true) :
    PlainSh (stepCluster w st cache cl).1.lc := by
  obtain ⟨hd, tl, rfl, hhd, htl⟩ := hcl
  cases hs : st.state with
  | ansiEscape =>
    simp only [stepCluster, hs]
    split
    · exact h
    · split
      · exact h
      · split
        · exact h
        · exact plainSh_stepText w hd tl h hhd htl
  | ansiSubstring =>
    simp only [stepCluster, hs]
    split <;> exact h
  | ansiControlSequence =>
    simp only [stepCluster, hs]
    split
    · exact h
    · split
      · exact h
      · split <;> exact h
  | ansiText =>
    simp only [stepCluster, hs]
    exact plainSh_stepText w hd tl h hhd htl

theorem plainSh_parseFrom (w : Int) (cls : List (List Nat)) :
    ∀ {st : PState} {cache : CsiCache}, PlainSh st.lc →
      (∀ cl ∈ cls, ∃ hd tl, cl = hd :: tl ∧ TameR hd ∧ ∀ r ∈ tl, isComb r = true) →
      PlainSh (parseFrom w st cache cls).1.lc := by
  induction cls with
  | nil => intro st cache h _; exact h
  | cons cl cls ih =>
    intro st cache h hcl
    rw [parseFrom_cons]
    exact ih (plainSh_stepCluster w cache cl h (hcl cl (by simp)))
      (fun cl' hcl' => hcl cl' (by simp [hcl']))

/-- The parse of a tame line is plain-shaped. -/
theorem plainSh_strToContents (s : List Nat) (w : Int) (hs : ∀ r ∈ s, TameR r) :
    PlainSh (StrToContents s w) := by
  refine plainSh_parseFrom w (segment s) Chunks.nil ?_
  intro cl hcl
  obtain ⟨hd, tl, rfl, hhd, htl⟩ := segment_shape s cl hcl
  exact ⟨hd, tl, rfl, hs hd hhd, fun r hr => (htl r hr).1⟩

/-! ### Re-parsing block clusters -/

/-- A block cluster: a base code point of width 1 or 2 followed by
extending marks.  This is the shape of every cluster of the segmented
reconstruction of a plain-shaped content list. -/
def BlockCl (cl : List Nat) : Prop :=
  ∃ b marks, cl = b :: marks ∧ (runeWidth b = 1 ∨ runeWidth b = 2) ∧
    ∀ r ∈ marks, isComb r = true

/-- The style-less data `(width, mainc, combc)` of a cell sequence. -/
def plainCells (lc : LineContents) : List (Nat × Nat × List Nat) :=
  lc.map fun c => (c.width, c.mainc, c.combc)

/-- The style-less cells a block cluster parses to. -/
def blockCells (cl : List Nat) : List (Nat × Nat × List Nat) :=
  match cl with
  | [] => []
  | b :: marks =>
    if runeWidth b = 1 then [(1, b, marks)]
    else [(2, b, marks), (0, 0, [])]

theorem emit1_plain (rv : Nat) (rest : List Nat) (st : PState) :
    plainCells (emit1 rv rest st).lc = plainCells st.lc ++ [(1, rv, rest)] ∧
    (emit1 rv rest st).state = st.state := by
  unfold emit1
  split <;> simp [plainCells]

theorem emit2_plain (rv : Nat) (rest : List Nat) (st : PState) :
    plainCells (emit2 rv rest st).lc =
      plainCells st.lc ++ [(2, rv, rest), (0, 0, [])] ∧
    (emit2 rv rest st).state = st.state := by
  unfold emit2
  split <;> simp [plainCells, DefaultContent]

theorem parse_blocks (w : Int) (cls : List (List Nat)) :
    ∀ {st : PState} {cache : CsiCache}, st.state = .ansiText →
      (∀ cl ∈ cls, BlockCl cl) →
      plainCells (parseFrom w st cache cls).1.lc =
        plainCells st.lc ++ (cls.map blockCells).flatten ∧
      (parseFrom w st cache cls).1.state = .ansiText := by
  induction cls with
  | nil =>
    intro st cache hst _
    exact ⟨by simp [parseFrom_nil], hst⟩
  | cons cl cls ih =>
    intro st cache hst hb
    obtain ⟨b, marks, rfl, hbw, hmk⟩ := hb cl (by simp)
    rw [parseFrom_cons, stepCluster_text w hst cache _ (by simp)]
    rcases hbw with hb1 | hb2
    · rw [stepText_emit1 w b marks hb1]
      have hst' : (emit1 b marks st).state = .ansiText := by
        rw [(emit1_plain b marks st).2, hst]
      obtain ⟨ih1, ih2⟩ := ih hst' (fun cl' h' => hb cl' (by simp [h']))
      refine ⟨?_, ih2⟩
      rw [ih1, (emit1_plain b marks st).1]
      simp [blockCells, hb1, List.append_assoc]
    · rw [stepText_emit2 w b marks hb2]
      have hst' : (emit2 b marks st).state = .ansiText := by
        rw [(emit2_plain b marks st).2, hst]
      obtain ⟨ih1, ih2⟩ := ih hst' (fun cl' h' => hb cl' (by simp [h']))
      refine ⟨?_, ih2⟩
      rw [ih1, (emit2_plain b marks st).1]
      have hb1 : ¬ runeWidth b = 1 := by omega
      simp [blockCells, hb1, List.append_assoc]

/-- The clusters the reconstruction of a content list segments into:
one block per non-placeholder cell. -/
def blocksOf (lc : LineContents) : List (List Nat) :=
  lc.filterMap fun c => if c.mainc = 0 then none else some (c.mainc :: c.combc)

theorem recon_segment {lc : LineContents} (h : PlainSh lc) :
    segment (reconStr lc) = blocksOf lc ∧ ∀ cl ∈ blocksOf lc, BlockCl cl := by
  induction h with
  | nil => exact ⟨rfl, by simp [blocksOf]⟩
  | one hys hw hq ih =>
    rename_i ys c
    obtain ⟨hm, hcc⟩ := hq
    have hm0 : c.mainc ≠ 0 := by
      intro h0
      rw [h0, runeWidth_zero] at hm
      exact absurd hm (by decide)
    have hrecon : reconStr (ys ++ [c]) = reconStr ys ++ (c.mainc :: c.combc) := by
      rw [reconStr_append]
      simp [reconStr, hm0]
    have hbase : StartsBase (c.mainc :: c.combc) :=
      Or.inr ⟨c.mainc, c.combc, rfl, isComb_false_of_width (by omega)⟩
    have hsegc : segment (c.mainc :: c.combc) = [c.mainc :: c.combc] := by
      rw [segment_noctrl (not_ctrl_of_width_pos (by omega)), takeComb_all hcc]
      simp [segment, segmentF]
    have hblocks : blocksOf (ys ++ [c]) = blocksOf ys ++ [c.mainc :: c.combc] := by
      simp [blocksOf, List.filterMap_append, hm0]
    refine ⟨?_, ?_⟩
    · rw [hrecon, segment_append hbase, ih.1, hsegc, hblocks]
    · rw [hblocks]
      intro cl hcl
      rcases List.mem_append.mp hcl with hcl | hcl
      · exact ih.2 cl hcl
      · rcases List.mem_singleton.mp hcl with rfl
        exact ⟨c.mainc, c.combc, rfl, Or.inl hm, hcc⟩
  | two hys hw hmain hq ih =>
    rename_i ys c
    obtain ⟨hm, hcc⟩ := hq
    have hrecon : reconStr (ys ++ [c, DefaultContent]) =
        reconStr ys ++ (c.mainc :: c.combc) := by
      rw [reconStr_append]
      simp [reconStr, hmain, DefaultContent]
    have hbase : StartsBase (c.mainc :: c.combc) :=
      Or.inr ⟨c.mainc, c.combc, rfl, isComb_false_of_width (by omega)⟩
    have hsegc : segment (c.mainc :: c.combc) = [c.mainc :: c.combc] := by
      rw [segment_noctrl (not_ctrl_of_width_pos (by omega)), takeComb_all hcc]
      simp [segment, segmentF]
    have hblocks : blocksOf (ys ++ [c, DefaultContent]) =
        blocksOf ys ++ [c.mainc :: c.combc] := by
      simp [blocksOf, List.filterMap_append, hmain, DefaultContent]
    refine ⟨?_, ?_⟩
    · rw [hrecon, segment_append hbase, ih.1, hsegc, hblocks]
    · rw [hblocks]
      intro cl hcl
      rcases List.mem_append.mp hcl with hcl | hcl
      · exact ih.2 cl hcl
      · rcases List.mem_singleton.mp hcl with rfl
        exact ⟨c.mainc, c.combc, rfl, Or.inr hm, hcc⟩

theorem plainCells_blocks {lc : LineContents} (h : PlainSh lc) :
    ((blocksOf lc).map blockCells).flatten = plainCells lc := by
  induction h with
  | nil => rfl
  | one hys hw hq ih =>
    rename_i ys c
    have hm0 : c.mainc ≠ 0 := by
      intro h0
      have h1 := hq.1
      rw [h0, runeWidth_zero] at h1
      exact absurd h1 (by decide)
    have hblocks : blocksOf (ys ++ [c]) = blocksOf ys ++ [c.mainc :: c.combc] := by
      simp [blocksOf, List.filterMap_append, hm0]
    rw [hblocks]
    simp [List.map_append, ih, plainCells, blockCells, hq.1, hw]
  | two hys hw hmain hq ih =>
    rename_i ys c
    have hblocks : blocksOf (ys ++ [c, DefaultContent]) =
        blocksOf ys ++ [c.mainc :: c.combc] := by
      simp [blocksOf, List.filterMap_append, hmain, DefaultContent]
    rw [hblocks]
    have hb1 : ¬ runeWidth c.mainc = 1 := by
      have := hq.1
      omega
    simp [List.map_append, ih, plainCells, blockCells, hb1, hw, DefaultContent]

/-- Re-parsing the reconstruction of a plain-shaped content list gives
the same cells modulo style. -/
theorem roundtrip_plainSh {lc : LineContents} (h : PlainSh lc) (w : Int) :
    plainCells (StrToContents (reconStr lc) w) = plainCells lc := by
  obtain ⟨hseg, hbl⟩ := recon_segment h
  unfold StrToContents parseString
  rw [hseg]
  obtain ⟨h1, _⟩ :=
    @parse_blocks w (blocksOf lc) initState emptyCsiCache rfl hbl
  rw [h1]
  simpa [plainCells, initState] using plainCells_blocks h

theorem plainSh_mem {lc : LineContents} (h : PlainSh lc) :
    ∀ c ∈ lc, ((runeWidth c.mainc = 1 ∨ runeWidth c.mainc = 2) ∨ c = DefaultContent) ∧
      ∀ r ∈ c.combc, isComb r = true := by
  induction h with
  | nil => simp
  | one hys hw hq ih =>
    rename_i ys c
    intro x hx
    rcases List.mem_append.mp hx with hx | hx
    · exact ih x hx
    · rcases List.mem_singleton.mp hx with rfl
      exact ⟨Or.inl (Or.inl hq.1), hq.2⟩
  | two hys hw hmain hq ih =>
    rename_i ys c
    intro x hx
    rcases List.mem_append.mp hx with hx | hx
    · exact ih x hx
    · rcases List.mem_cons.mp hx with rfl | hx
      · exact ⟨Or.inl (Or.inr hq.1), hq.2⟩
      · rcases List.mem_singleton.mp hx with rfl
        exact ⟨Or.inr rfl, by simp [DefaultContent]⟩

/-- **C3, counterexample**: the round-trip claim fails as stated.  For
the input `"\t̀"` with tab width 2, the combining mark attaches to
the tab's padding cell (`mainc = 0`), which `ContentsToStr` skips, so
re-parsing the reconstruction loses the mark: the cell sequences differ
beyond style (in `combc`). -/
theorem C3_counterexample :
    ¬ plainCells (StrToContents ((ContentsToStr (StrToContents [9, 0x300] 2)).1) 2) =
        plainCells (StrToContents [9, 0x300] 2) := by
  decide

/-- **C3 (amended)**: for a tame input line — no tabs, and no
zero-width control code points other than backspace, newline and
escape — re-parsing `ContentsToStr(parse(s, w))` with the same tab
width reproduces the same cell sequence modulo style, and the
reconstructed string is free of escapes, tabs and backspaces (escape
sequences vanish and backspace-deleted characters are gone). -/
theorem C3_plain_roundtrip (s : List Nat) (w : Int) (hs : ∀ r ∈ s, TameR r) :
    plainCells (StrToContents ((ContentsToStr (StrToContents s w)).1) w) =
      plainCells (StrToContents s w) ∧
    ∀ r ∈ (ContentsToStr (StrToContents s w)).1, r ≠ 0x1b ∧ r ≠ 9 ∧ r ≠ 8 := by
  have hplain := plainSh_strToContents s w hs
  rw [contentsToStr_fst]
  have hne : ∀ k : Nat, runeWidth k ≠ 0 → k ≠ 0x1b ∧ k ≠ 9 ∧ k ≠ 8 := by
    intro k hk
    refine ⟨?_, ?_, ?_⟩ <;> rintro rfl <;> exact hk (by decide)
  constructor
  · exact roundtrip_plainSh hplain w
  · intro r hr
    obtain ⟨c, hc, hrc⟩ := reconStr_mem r hr
    obtain ⟨hcw, hcc⟩ := plainSh_mem hplain c hc
    rcases hrc with ⟨rfl, hm0⟩ | hrc
    · rcases hcw with hw | rfl
      · exact hne c.mainc (by omega)
      · exact absurd rfl hm0
    · have hx := hcc r hrc
      refine ⟨?_, ?_, ?_⟩ <;> rintro rfl <;> exact absurd hx (by decide)

/-- Witness for C3 (amended) on `"á\x1b[m世b"`: a mark on a
base character, an SGR escape and a wide character round-trip exactly
(modulo style). -/
theorem C3_plain_roundtrip_witness :
    (∀ r ∈ ([97, 0x301, 0x1b, 91, 109, 0x4e16, 98] : List Nat), TameR r) ∧
    plainCells (StrToContents
        ((ContentsToStr (StrToContents [97, 0x301, 0x1b, 91, 109, 0x4e16, 98] 4)).1) 4) =
      plainCells (StrToContents [97, 0x301, 0x1b, 91, 109, 0x4e16, 98] 4) :=
  ⟨by decide, (C3_plain_roundtrip [97, 0x301, 0x1b, 91, 109, 0x4e16, 98] 4 (by decide)).1⟩

end Ov
